import Mathlib

/-!
Verification of the V-LABS workflow-orchestration core.

This file gives a shallow embedding, in Lean 4, of the orchestration code of
the repository:

* `backend/backend_com/orchestration/workflow_engine.py`
  (`WorkflowStep`, `WorkflowResult`, `WorkflowEngine` with
  `_execute_single_step`, `_execute_sequential`, `_execute_parallel`,
  `_execute_steps`, `execute_workflow`, `cleanup_completed_workflows`);
* `backend/backend_com/orchestration/coordinator.py`
  (`Coordinator._sanitize_log_data`);
* `backend/backend_com/orchestration/educational_orchestrator.py`
  (`EducationalOrchestrator._calculate_answer_quality`).

Python callables (step actions) are abstracted as oracles
`Nat → AttemptOutcome` giving, for each attempt index, either the returned
value, a raised exception message, or a timeout.  Shared mutable objects
(the step dataclasses stored in `_workflow_definitions` and aliased by the
shallow `list.copy()` in `execute_workflow`) are modelled by an explicit
store indexed by step ids.  The cooperative scheduler of
`_execute_parallel` is modelled as a step function over an explicit state,
parameterised by a schedule that decides which in-flight tasks finish at
each `asyncio.wait` call.  Python floats are modelled as rationals.
-/

namespace VLabs

/-- Step states, from `StepState` in `workflow_engine.py`. -/
inductive StepState where
  | pending
  | running
  | completed
  | failed
  | skipped
  | retrying
deriving DecidableEq, Repr

/-- Workflow states, from `WorkflowState` in `workflow_engine.py`. -/
inductive WorkflowState where
  | pending
  | running
  | completed
  | failed
  | cancelled
  | paused
deriving DecidableEq, Repr

/-- A workflow state is terminal when it is COMPLETED, FAILED or CANCELLED
(the list tested in `cleanup_completed_workflows`). -/
def WorkflowState.isTerminal : WorkflowState → Bool
  | .completed => true
  | .failed => true
  | .cancelled => true
  | _ => false

/-- Outcome of one attempt of a step action: the Python callable either
returns a value, raises an exception, or `asyncio.wait_for` raises
`TimeoutError`. -/
inductive AttemptOutcome where
  | ok (result : String)
  | raised (msg : String)
  | timedOut
deriving DecidableEq, Repr

/-- An attempt that is not `ok` fails (a timeout and a raised error follow
the same retry path in `_execute_single_step`). -/
def AttemptOutcome.fails : AttemptOutcome → Bool
  | .ok _ => false
  | _ => true

/-- The `WorkflowStep` dataclass of `workflow_engine.py`.  The callable
`function` is abstracted as the oracle `action`; `condition`, which the
engine evaluates through `_evaluate_condition` (mapping a raising predicate
to `False`), is abstracted as its pre-evaluated boolean result. -/
structure WorkflowStep where
  name : String
  action : Nat → AttemptOutcome
  maxRetries : Nat := 3
  timeoutSecs : Option Nat := none
  dependsOn : List String := []
  canFail : Bool := false
  condition : Option Bool := none
  state : StepState := .pending
  result : Option String := none
  error : Option String := none
  retryCount : Nat := 0

/-- One entry of `WorkflowResult.steps_results` (the per-step outcome dict
written by `_execute_single_step`; the wall-clock `duration_ms` field is
not modelled). -/
inductive StepRecord where
  | skippedRec (reason : String)
  | successRec (result : String) (attempts : Nat)
  | failureRec (error : String) (attempts : Nat)
deriving DecidableEq, Repr

/-- Number of attempts recorded in a steps-results entry (0 for a skipped
step, which never ran its action). -/
def StepRecord.attempts : StepRecord → Nat
  | .skippedRec _ => 0
  | .successRec _ a => a
  | .failureRec _ a => a

/-- The `WorkflowResult` dataclass of `workflow_engine.py`.  `steps_results`
is an insertion-ordered association list, like a Python dict;
`end_time` is kept (as an optional rational timestamp) because
`cleanup_completed_workflows` reads it.  Wall-clock `start_time` and
`duration_ms` are not modelled. -/
structure WorkflowResult where
  workflowId : String
  state : WorkflowState
  stepsResults : List (String × StepRecord)
  totalSteps : Nat
  completedSteps : Nat
  failedSteps : Nat
  skippedSteps : Nat
  errors : List String
  endTime : Option ℚ := none

/-- Update a key in an insertion-ordered association list the way Python
dict assignment does: overwrite in place when present, append otherwise. -/
def dictSet {α : Type} (l : List (String × α)) (k : String) (v : α) :
    List (String × α) :=
  match l with
  | [] => [(k, v)]
  | (k', v') :: rest =>
      if k' = k then (k, v) :: rest else (k', v') :: dictSet rest k v

/-- Error message built in the `asyncio.TimeoutError` branch of
`_execute_single_step`: `f"Step {step.name} timed out after {step.timeout}s"`.
Python renders `None` for an absent timeout. -/
def timeoutMsg (step : WorkflowStep) : String :=
  let t := match step.timeoutSecs with
    | some v => toString v
    | none => "None"
  "Step " ++ step.name ++ " timed out after " ++ t ++ "s"

/-- Error message built in the generic `except Exception` branch of
`_execute_single_step`: `f"Step {step.name} failed: {str(e)}"`. -/
def raisedMsg (step : WorkflowStep) (e : String) : String :=
  "Step " ++ step.name ++ " failed: " ++ e

/-- The error message a failing attempt produces (`error_msg` in both
`except` branches of `_execute_single_step`). -/
def attemptErrorMsg (step : WorkflowStep) : AttemptOutcome → String
  | .ok _ => ""
  | .raised e => raisedMsg step e
  | .timedOut => timeoutMsg step

/-- The retry loop `for attempt in range(step.max_retries + 1)` of
`_execute_single_step`, at attempt index `attempt` with `left` retries
still allowed (`left = step.max_retries - attempt`, so the code's
`attempt < step.max_retries` test is `left > 0`).  Returns the mutated
step, the entry written into `steps_results`, and the list of back-off
sleeps (`await asyncio.sleep(2 ** attempt)`) performed between attempts,
in order. -/
def runAttemptsFrom (step : WorkflowStep) (attempt : Nat) :
    Nat → WorkflowStep × StepRecord × List Nat
  | 0 =>
    match step.action attempt with
    | .ok r =>
        ({ step with state := .completed, result := some r },
         .successRec r (attempt + 1), [])
    | o =>
        let msg := attemptErrorMsg step o
        let step' := { step with error := some msg }
        ({ step' with state := .failed }, .failureRec msg (attempt + 1), [])
  | l + 1 =>
    match step.action attempt with
    | .ok r =>
        ({ step with state := .completed, result := some r },
         .successRec r (attempt + 1), [])
    | o =>
        let msg := attemptErrorMsg step o
        let step' := { step with error := some msg }
        let stepR := { step' with state := .retrying,
                                  retryCount := step'.retryCount + 1 }
        let (s, rec, sleeps) := runAttemptsFrom stepR (attempt + 1) l
        (s, rec, 2 ^ attempt :: sleeps)

/-- The retry loop from attempt 0, with `max_retries` retries allowed. -/
def runAttempts (step : WorkflowStep) : WorkflowStep × StepRecord × List Nat :=
  runAttemptsFrom step 0 step.maxRetries

/-- The body of `_execute_single_step` acting on the step alone (its effect
on the step object is independent of the `WorkflowResult`): condition
check, then the retry loop from attempt 0. -/
def execStep (step : WorkflowStep) : WorkflowStep × StepRecord × List Nat :=
  if step.condition = some false then
    ({ step with state := .skipped }, .skippedRec "condition_not_met", [])
  else
    runAttempts { step with state := .running }

/-- The effect of `_execute_single_step` on the `WorkflowResult`: bump the
counter matching the outcome, record errors, and write the steps-results
entry. -/
def applyRecord (wr : WorkflowResult) (name : String) (rec : StepRecord) :
    WorkflowResult :=
  match rec with
  | .skippedRec _ =>
      { wr with skippedSteps := wr.skippedSteps + 1,
                stepsResults := dictSet wr.stepsResults name rec }
  | .successRec _ _ =>
      { wr with completedSteps := wr.completedSteps + 1,
                stepsResults := dictSet wr.stepsResults name rec }
  | .failureRec msg _ =>
      { wr with failedSteps := wr.failedSteps + 1,
                errors := wr.errors ++ [msg],
                stepsResults := dictSet wr.stepsResults name rec }

/-- The `_execute_single_step`: runs the step and applies its effects to the
workflow result. -/
def execSingleStep (step : WorkflowStep) (wr : WorkflowResult) :
    WorkflowStep × WorkflowResult :=
  let (s, rec, _) := execStep step
  (s, applyRecord wr step.name rec)

/-- The `_execute_sequential`: iterate the steps in declaration order; stop on
an external cancellation, or right after a step that ended FAILED and is
not `can_fail` (fail-fast).  Returns the step list with the attempted
steps replaced by their mutated versions (the Python code mutates the step
objects in place) together with the updated workflow result. -/
def execSequential (steps : List WorkflowStep) (wr : WorkflowResult) :
    List WorkflowStep × WorkflowResult :=
  match steps with
  | [] => ([], wr)
  | step :: rest =>
      if wr.state = .cancelled then (step :: rest, wr)
      else
        let (s, wr') := execSingleStep step wr
        if s.state = .failed ∧ s.canFail = false then
          (s :: rest, wr')
        else
          let (rest', wr'') := execSequential rest wr'
          (s :: rest', wr'')

/-- The final-state determination at the end of `_execute_steps` (lines
198-211): FAILED when some failed step is not `can_fail`
(`critical_failures`), COMPLETED otherwise. -/
def determineFinalState (steps : List WorkflowStep) (wr : WorkflowResult) :
    WorkflowState :=
  if wr.failedSteps > 0 then
    if steps.any (fun s => s.state = .failed ∧ s.canFail = false) then
      .failed
    else
      .completed
  else
    .completed

/-- The fresh `WorkflowResult` built at the top of `_execute_steps`. -/
def initResult (workflowId : String) (total : Nat) : WorkflowResult :=
  { workflowId := workflowId
    state := .running
    stepsResults := []
    totalSteps := total
    completedSteps := 0
    failedSteps := 0
    skippedSteps := 0
    errors := []
    endTime := none }

/-- The `_execute_steps` in sequential mode (`parallel_execution=False`), with
no external cancellation and no engine-level exception: build the initial
result, run the steps sequentially, determine the final state.  `endTs` is
the wall-clock time recorded as `end_time` in the `finally` block. -/
def runSequentialWorkflow (workflowId : String) (steps : List WorkflowStep)
    (endTs : ℚ := 1) : WorkflowResult × List WorkflowStep :=
  let wr0 := initResult workflowId steps.length
  let (steps', wr) := execSequential steps wr0
  ({ wr with state := determineFinalState steps' wr, endTime := some endTs },
   steps')

/-- Observable events of a parallel execution: a task being created for a
step (`asyncio.create_task` in `_execute_parallel`) and a step's task
finishing with the step's resulting state.  A started event carries the
step's declared dependencies so that ordering properties can be stated on
the trace alone. -/
inductive Event where
  | started (name : String) (deps : List String)
  | finished (name : String) (st : StepState)
deriving DecidableEq, Repr

/-- State of the `_execute_parallel` loop: `pending` mirrors
`pending_steps` (insertion-ordered dict of not-yet-launched steps),
`running` the in-flight `running_tasks`, `completedNames` the
`completed_steps` set of names whose task has finished, `finished` the
mutated step objects of finished tasks, `done` whether the loop has
exited. -/
structure ParState where
  pending : List WorkflowStep
  running : List WorkflowStep
  completedNames : List String
  finished : List WorkflowStep
  wr : WorkflowResult
  trace : List Event
  done : Bool

/-- The `_get_ready_steps`: names of pending steps all of whose declared
dependencies are in the completed set, in pending order. -/
def getReadySteps (pending : List WorkflowStep) (completed : List String) :
    List String :=
  (pending.filter
    (fun s => s.dependsOn.all (fun d => decide (d ∈ completed)))).map
    (fun s => s.name)

/-- Split the running tasks by a schedule mask (true = this task finishes
in the current `asyncio.wait` call): returns (finishing, still running).
A mask shorter than the list marks the missing positions false. -/
def splitByMask (running : List WorkflowStep) (mask : List Bool) :
    List WorkflowStep × List WorkflowStep :=
  match running, mask with
  | [], _ => ([], [])
  | s :: rest, b :: ms =>
      let (d, r) := splitByMask rest ms
      if b then (s :: d, r) else (d, s :: r)
  | s :: rest, [] =>
      let (d, r) := splitByMask rest []
      (d, s :: r)

/-- The tasks that finish in one `asyncio.wait(..., FIRST_COMPLETED)`
call, as chosen by the schedule mask.  `asyncio.wait` returns at least one
finished task, so an all-false mask defaults to the first task. -/
def selectDone (running : List WorkflowStep) (mask : List Bool) :
    List WorkflowStep × List WorkflowStep :=
  let (d, r) := splitByMask running mask
  if d.isEmpty then (running.take 1, running.drop 1) else (d, r)

/-- Process a batch of finished tasks in order: each runs
`_execute_single_step` (its effects land when its coroutine runs), yielding
the mutated steps, the updated workflow result, and the finish events. -/
def finishTasks (ts : List WorkflowStep) (wr : WorkflowResult) :
    List WorkflowStep × WorkflowResult × List Event :=
  match ts with
  | [] => ([], wr, [])
  | t :: rest =>
      let (t', wr') := execSingleStep t wr
      let (fs, wr'', evs) := finishTasks rest wr'
      (t' :: fs, wr'', Event.finished t.name t'.state :: evs)

/-- One iteration of the `while pending_steps or running_tasks` loop of
`_execute_parallel` (iteration index `k`): exit when nothing is pending or
running; on cancellation cancel the in-flight tasks and exit; otherwise
launch the ready steps, and if anything is in flight let the schedule pick
the batch that finishes at the `asyncio.wait` call; exit when no step was
ready and nothing remains in flight (the silent-stop branch). -/
def parStep (sched : Nat → List Bool) (k : Nat) (st : ParState) : ParState :=
  if st.done then st
  else if st.pending.isEmpty && st.running.isEmpty then { st with done := true }
  else if st.wr.state = .cancelled then
    { st with running := [], done := true }
  else
    let readyNames := getReadySteps st.pending st.completedNames
    let launched := st.pending.filter (fun s => decide (s.name ∈ readyNames))
    let pending' := st.pending.filter (fun s => decide (s.name ∉ readyNames))
    let running' := st.running ++ launched
    let trace' := st.trace ++ launched.map (fun s => .started s.name s.dependsOn)
    if running'.isEmpty then
      { st with pending := pending', trace := trace', done := true }
    else
      let (doneTasks, running'') := selectDone running' (sched k)
      let (fs, wr', evs) := finishTasks doneTasks st.wr
      { pending := pending'
        running := running''
        completedNames := st.completedNames ++ doneTasks.map (fun s => s.name)
        finished := st.finished ++ fs
        wr := wr'
        trace := trace' ++ evs
        done := readyNames.isEmpty && running''.isEmpty }

/-- Iterate `parStep` for `fuel` iterations starting at iteration index
`k`, stopping early once the loop is done. -/
def parRun (sched : Nat → List Bool) (fuel k : Nat) (st : ParState) :
    ParState :=
  match fuel with
  | 0 => st
  | fuel' + 1 => parRun sched fuel' (k + 1) (parStep sched k st)

/-- Initial state of the `_execute_parallel` loop. -/
def parInit (workflowId : String) (steps : List WorkflowStep) : ParState :=
  { pending := steps
    running := []
    completedNames := []
    finished := []
    wr := initResult workflowId steps.length
    trace := []
    done := false }

/-- All step objects of the original list after a parallel run (the Python
code mutates them in place; finished ones carry their final state, the
rest were never executed). -/
def ParState.allSteps (st : ParState) : List WorkflowStep :=
  st.finished ++ st.running ++ st.pending

/-- The `_execute_steps` in parallel mode, with no external cancellation and
no engine-level exception: run the loop under the given schedule and
fuel, then determine the final state over the (mutated) step objects. -/
def runParallelWorkflow (workflowId : String) (steps : List WorkflowStep)
    (sched : Nat → List Bool) (fuel : Nat) (endTs : ℚ := 1) :
    WorkflowResult × ParState :=
  let st := parRun sched fuel 0 (parInit workflowId steps)
  ({ st.wr with state := determineFinalState st.allSteps st.wr,
                endTime := some endTs }, st)

/-- Python exceptions relevant to `execute_workflow`.  The repository
defines no `NotFoundError` class anywhere; the constructor exists here
only so the spec's claim about it can be stated and compared with what the
code raises. -/
inductive PyError where
  | valueError (msg : String)
  | notFoundError (msg : String)
deriving DecidableEq, Repr

/-- Whether an error is a `NotFoundError`. -/
def PyError.isNotFound : PyError → Bool
  | .notFoundError _ => true
  | _ => false

/-- Lookup in an insertion-ordered association list (Python dict read). -/
def dictGet {α : Type} (l : List (String × α)) (k : String) : Option α :=
  match l with
  | [] => none
  | (k', v) :: rest => if k' = k then some v else dictGet rest k

/-- The default step used for out-of-range store reads (never reached for
well-formed engines). -/
instance : Inhabited WorkflowStep :=
  ⟨{ name := "", action := fun _ => .ok "" }⟩

/-- The `WorkflowEngine` object: `defs` models `_workflow_definitions`
except that, because the step dataclasses are mutable objects shared
between the stored template list and the `list.copy()` made by
`execute_workflow`, a definition maps the workflow name to the *ids* of
its step objects in an explicit `store` (the heap of step objects).
`active` models `_active_workflows`. -/
structure Engine where
  defs : List (String × List Nat)
  store : List WorkflowStep
  active : List (String × WorkflowResult)

/-- An engine with no definitions and no active workflows. -/
def Engine.empty : Engine := { defs := [], store := [], active := [] }

/-- The `define_workflow(name, steps)`: store the caller's step objects (they
get fresh ids in the store) and record the template as the list of those
ids. -/
def defineWorkflow (e : Engine) (name : String)
    (steps : List WorkflowStep) : Engine :=
  let ids := (List.range steps.length).map (fun i => e.store.length + i)
  { e with store := e.store ++ steps, defs := dictSet e.defs name ids }

/-- Write the mutated step objects back into the store at their ids
(modelling Python's in-place mutation of the shared step objects). -/
def writeBack (store : List WorkflowStep) (ids : List Nat)
    (steps' : List WorkflowStep) : List WorkflowStep :=
  match ids, steps' with
  | i :: is, s :: ss => writeBack (store.set i s) is ss
  | _, _ => store

/-- The `execute_workflow(name, context?, parallel_execution?)` in sequential
mode: raise `ValueError` when the name was never defined; otherwise take
`self._workflow_definitions[workflow_name].copy()` — a *shallow* copy, so
the same step objects (the same store ids) — and run them.  The
`WorkflowResult` is added to `_active_workflows` by `_execute_steps` and
removed again in its `finally` block, so `active` is unchanged.  Returns
the result and the engine with the step objects mutated in place. -/
def executeWorkflow (e : Engine) (name workflowId : String) :
    Except PyError WorkflowResult × Engine :=
  match dictGet e.defs name with
  | none => (.error (.valueError ("Workflow not defined: " ++ name)), e)
  | some ids =>
      let steps := ids.map (fun i => e.store.getD i default)
      let (wr, steps') := runSequentialWorkflow workflowId steps
      (.ok wr, { e with store := writeBack e.store ids steps' })

/-- The age test of `cleanup_completed_workflows`:
`result.end_time and result.end_time < cutoff_time`.  A missing
`end_time` (`None`) — and, by Python truthiness, an `end_time` of `0.0` —
makes the whole conjunction false. -/
def endTimeOldEnough (e : Option ℚ) (cutoff : ℚ) : Bool :=
  match e with
  | none => false
  | some t => decide (t ≠ 0) && decide (t < cutoff)

/-- The removal condition of `cleanup_completed_workflows`: terminal state
and old-enough end time. -/
def cleanupRemoves (wr : WorkflowResult) (cutoff : ℚ) : Bool :=
  wr.state.isTerminal && endTimeOldEnough wr.endTime cutoff

/-- The `cleanup_completed_workflows(max_age_hours)` acting on the
`_active_workflows` registry at wall-clock time `currentTime`: collect the
entries matching the removal condition, delete them, and return the new
registry together with the number of removed entries. -/
def cleanupCompletedWorkflows (active : List (String × WorkflowResult))
    (maxAgeHours : ℚ) (currentTime : ℚ) :
    List (String × WorkflowResult) × Nat :=
  let cutoff := currentTime - maxAgeHours * 3600
  let toRemove := active.filter (fun p => cleanupRemoves p.2 cutoff)
  (active.filter (fun p => !cleanupRemoves p.2 cutoff), toRemove.length)

/-- JSON-like values appearing in log data handled by
`Coordinator._sanitize_log_data`. -/
inductive Value where
  | vstr (s : String)
  | vint (n : ℤ)
  | vbool (b : Bool)
  | vnone
  | vdict (entries : List (String × Value))
  | vlist (elems : List Value)

/-- Contiguous-substring test (Python's `in` on strings). -/
def isSubstrOf (needle hay : List Char) : Bool :=
  (List.range (hay.length + 1)).any
    (fun i => (hay.drop i).take needle.length == needle)

/-- The `sensitive_fields` set of `_sanitize_log_data`. -/
def sensitiveFields : List String :=
  ["senha", "password", "token", "secret", "key",
   "auth", "authorization", "credential"]

/-- ASCII lowercasing of one character (Python's `str.lower()` restricted
to the ASCII range, which covers the data handled here). -/
def lowerChar (c : Char) : Char :=
  if 'A' ≤ c && c ≤ 'Z' then Char.ofNat (c.toNat + 32) else c

/-- Lowercase a string as a character list. -/
def toLowerList (s : String) : List Char := s.toList.map lowerChar

/-- The key test of `_sanitize_log_data`:
`any(sensitive in key_lower for sensitive in sensitive_fields)` on the
lowercased key. -/
def isSensitiveKey (k : String) : Bool :=
  sensitiveFields.any (fun w => isSubstrOf w.toList (toLowerList k))

/-- The `Coordinator._sanitize_log_data(data)`: for each entry, a sensitive
key gets the redaction marker; a dict value is sanitized recursively; a
non-empty list keeps its sanitized first element plus a `"..."` marker
when that element is a dict, and becomes an item-count summary string
otherwise; anything else is kept as is. -/
def sanitizeLogData : List (String × Value) → List (String × Value)
  | [] => []
  | (k, v) :: rest =>
      let v' :=
        if isSensitiveKey k then Value.vstr "[REDACTED]"
        else
          match v with
          | .vdict es => .vdict (sanitizeLogData es)
          | .vlist (e :: tail) =>
              match e with
              | .vdict es =>
                  .vlist [.vdict (sanitizeLogData es), .vstr "..."]
              | _ =>
                  .vstr ("[" ++ toString (e :: tail).length ++ " items]")
          | other => other
      (k, v') :: sanitizeLogData rest

/-- Modelled from the spec claim's wording, to be compared with
`sanitizeLogData`: replace the value of each sensitive key with the
redaction marker, recurse into nested mappings, keep of a non-empty list
only the first element (sanitized if it is a mapping) followed by an
`"..."` marker, or replace the list with a count-only summary string when
the first element is not a mapping. -/
def sanitizeSpec : List (String × Value) → List (String × Value)
  | [] => []
  | (k, v) :: rest =>
      let v' :=
        if isSensitiveKey k then Value.vstr "[REDACTED]"
        else
          match v with
          | .vdict es => .vdict (sanitizeSpec es)
          | .vlist (e :: tail) =>
              match e with
              | .vdict es => .vlist [.vdict (sanitizeSpec es), .vstr "..."]
              | _ => .vstr ("[" ++ toString (e :: tail).length ++ " items]")
          | other => other
      (k, v') :: sanitizeSpec rest

/-- Round half-to-even to an integer (the rounding of Python's `round`). -/
def roundHalfEven (x : ℚ) : ℤ :=
  let f := ⌊x⌋
  let frac := x - f
  if frac < 1 / 2 then f
  else if 1 / 2 < frac then f + 1
  else if f % 2 = 0 then f else f + 1

/-- Python's `round(x, 2)`. -/
def round2 (x : ℚ) : ℚ := (roundHalfEven (x * 100) : ℚ) / 100

/-- Split a character list at whitespace runs, dropping empty tokens, as
Python's `str.split()` with no argument does; `acc` holds the reversed
current token. -/
def splitWsAux : List Char → List Char → List (List Char)
  | [], acc => if acc.isEmpty then [] else [acc.reverse]
  | c :: rest, acc =>
      if c.isWhitespace then
        if acc.isEmpty then splitWsAux rest []
        else acc.reverse :: splitWsAux rest []
      else splitWsAux rest (c :: acc)

/-- Whitespace tokenization of a character list. -/
def splitWs (cs : List Char) : List (List Char) := splitWsAux cs []

/-- Lowercased whitespace tokenization as in `content.lower().split()`,
collected as a set (Python builds a `set` of the tokens). -/
def tokenSet (s : String) : Finset (List Char) :=
  (splitWs (toLowerList s)).toFinset

/-- The `EducationalOrchestrator._calculate_answer_quality(answer, question)`
(the returned dict's `score` value), with Python floats modelled as
rationals: length criterion, shared-word relevance criterion, terminal
punctuation criterion, clamped to 1 and rounded to 2 decimals. -/
def calcAnswerQuality (answer question : String) : ℚ :=
  let lengthScore : ℚ :=
    if answer.toList.length < 50 then 1 / 5
    else if answer.toList.length < 200 then 1 / 2
    else 4 / 5
  let questionWords := tokenSet question
  let answerWords := tokenSet answer
  let commonWords := questionWords ∩ answerWords
  let relevanceScore : ℚ :=
    if 0 < commonWords.card then
      min ((commonWords.card : ℚ) / (questionWords.card : ℚ)) 1 * (3 / 10)
    else 0
  let structureScore : ℚ :=
    if answer.toList.contains '.' || answer.toList.contains '!'
        || answer.toList.contains '?' then
      1 / 10
    else 0
  round2 (min (lengthScore + relevanceScore + structureScore) 1)

/-- Modelled from the spec claim's wording, to be compared with
`calcAnswerQuality`: add 0.2 / 0.5 / 0.8 by answer length, add 0.3 times
the fraction of the question's token set present in the answer's token
set (0 when the question has no tokens, as a fraction of the empty set),
add 0.1 for terminal punctuation, clamp to 1, round to 2 decimals. -/
def calcAnswerQualitySpec (answer question : String) : ℚ :=
  let lengthTerm : ℚ :=
    if answer.toList.length < 50 then 1 / 5
    else if answer.toList.length < 200 then 1 / 2
    else 4 / 5
  let qw := tokenSet question
  let aw := tokenSet answer
  let sharedFraction : ℚ := ((qw ∩ aw).card : ℚ) / (qw.card : ℚ)
  let punctTerm : ℚ :=
    if answer.toList.contains '.' || answer.toList.contains '!'
        || answer.toList.contains '?' then
      1 / 10
    else 0
  round2 (min (lengthTerm + 3 / 10 * sharedFraction + punctTerm) 1)

/-! ## Derived definitions used by the analysis -/

/-- The step object after `_execute_single_step` ran on it. -/
def execStepFst (s : WorkflowStep) : WorkflowStep := (execStep s).1

/-- A step whose execution ended FAILED and that is not `can_fail` (the
fail-fast / `critical_failures` condition). -/
def critFailed (s : WorkflowStep) : Bool :=
  s.state = StepState.failed && s.canFail = false

/-- Number of steps the sequential loop attempts before stopping: all of
them, or everything up to and including the first step whose execution is
a critical failure. -/
def seqSplit : List WorkflowStep → Nat
  | [] => 0
  | s :: rest =>
      if critFailed (execStepFst s) then 1 else 1 + seqSplit rest

/-- Apply the workflow-result effects of executing each step of a list in
order. -/
def applyAll (wr : WorkflowResult) (l : List WorkflowStep) : WorkflowResult :=
  l.foldl (fun w s => applyRecord w s.name (execStep s).2.1) wr

/-- The three per-step counters of a workflow result, summed. -/
def sumCounters (wr : WorkflowResult) : Nat :=
  wr.completedSteps + wr.failedSteps + wr.skippedSteps

/-- Number of steps of a list that are in a given state. -/
def countInState (l : List WorkflowStep) (σ : StepState) : Nat :=
  (l.filter (fun s => s.state = σ)).length

/-- Example step for the retry protocol: `max_retries = 2`, failing on the
first two attempts (indices 0 and 1) and succeeding on the third. -/
def retryStepC4 : WorkflowStep :=
  { name := "s"
    action := fun k => if k < 2 then .raised "e" else .ok "v"
    maxRetries := 2 }

/-- A step that always fails immediately (no retries), used in concrete
runs. -/
def failStepNamed (n : String) : WorkflowStep :=
  { name := n, action := fun _ => .raised "boom", maxRetries := 0 }

/-- A step that always succeeds, used in concrete runs. -/
def okStepNamed (n : String) (deps : List String := []) : WorkflowStep :=
  { name := n, action := fun _ => .ok "r", dependsOn := deps }

/-- Names finished so far in a trace (names of `finished` events, in
order). -/
def finishedNames : List Event → List String
  | [] => []
  | .finished n _ :: rest => n :: finishedNames rest
  | .started _ _ :: rest => finishedNames rest

/-- Scanning a trace left to right with `fin` the names already finished:
every `started` event's declared dependencies must already be finished.
This is the dependency-ordering property of a parallel execution. -/
def depsSeen : List Event → List String → Prop
  | [], _ => True
  | .started _ deps :: rest, fin => (∀ d ∈ deps, d ∈ fin) ∧ depsSeen rest fin
  | .finished n _ :: rest, fin => depsSeen rest (n :: fin)

/-- Structural invariant of the `_execute_parallel` loop state: the
workflow result stays RUNNING with counters counting exactly the finished
tasks, the three step pools partition the original steps, and the loop
only exits with nothing in flight. -/
structure ParInv (n : Nat) (steps0 : List WorkflowStep) (st : ParState) :
    Prop where
  stateRunning : st.wr.state = .running
  total : st.wr.totalSteps = n
  partition : st.pending.length + st.running.length + st.finished.length = n
  sum : sumCounters st.wr = st.finished.length
  failedCnt : st.wr.failedSteps = countInState st.finished .failed
  doneRun : st.done = true → st.running = []
  pendSub : ∀ s ∈ st.pending, s ∈ steps0
  runSub : ∀ s ∈ st.running, s ∈ steps0
  finExec : ∀ f ∈ st.finished, ∃ s ∈ steps0, f = execStepFst s
  pendNodup : (st.pending.map WorkflowStep.name).Nodup

/-- A fixed step is still waiting, in flight, or already finished (as its
executed version). -/
def StepEventually (s0 : WorkflowStep) (st : ParState) : Prop :=
  s0 ∈ st.pending ∨ s0 ∈ st.running ∨ execStepFst s0 ∈ st.finished

/-- The dependency-ordering invariant of the loop: the trace respects
dependencies and every name in the completed set has a finish event. -/
def TraceInv (st : ParState) : Prop :=
  depsSeen st.trace [] ∧
  ∀ d ∈ st.completedNames, d ∈ finishedNames st.trace

/-- The three-step parallel example: A always fails at once and may not
fail, B succeeds, C depends on both. -/
def stepA : WorkflowStep := failStepNamed "A"

/-- The always-succeeding step B of the parallel example. -/
def stepB : WorkflowStep := okStepNamed "B"

/-- The dependent step C of the parallel example. -/
def stepC : WorkflowStep := okStepNamed "C" ["A", "B"]

/-- The steps of the parallel example, in declaration order. -/
def parStepsC1 : List WorkflowStep := [stepA, stepB, stepC]

/-- A schedule under which the first `asyncio.wait` call reports both A
and B finished in the same batch. -/
def schedC1 : Nat → List Bool := fun _ => [true, true]

/-- The ready names computed at the top of a loop iteration. -/
def readyOf (st : ParState) : List String :=
  getReadySteps st.pending st.completedNames

/-- The steps launched in a loop iteration (ready ones, in pending
order). -/
def launchedOf (st : ParState) : List WorkflowStep :=
  st.pending.filter (fun s => decide (s.name ∈ readyOf st))

/-- The steps still pending after the launch phase. -/
def keptOf (st : ParState) : List WorkflowStep :=
  st.pending.filter (fun s => decide (s.name ∉ readyOf st))

/-- The in-flight tasks after the launch phase. -/
def runningAfterLaunch (st : ParState) : List WorkflowStep :=
  st.running ++ launchedOf st

/-- The start events emitted by the launch phase. -/
def startEventsOf (st : ParState) : List Event :=
  (launchedOf st).map (fun s => Event.started s.name s.dependsOn)

/-- Template step for the shallow-copy analysis: always fails, with one
retry allowed. -/
def c3TemplateStep : WorkflowStep :=
  { name := "a", action := fun _ => .raised "boom", maxRetries := 1 }

/-- Whether an `execute_workflow` outcome is a `NotFoundError`. -/
def resultIsNotFound : Except PyError WorkflowResult → Bool
  | .error e => e.isNotFound
  | .ok _ => false

/-- A registry entry of a cancelled workflow: `cancel_workflow` sets the
CANCELLED state but never sets `end_time`. -/
def cancelledEntryC10 : WorkflowResult :=
  { initResult "w" 1 with state := .cancelled }

/-- A registry entry of a finished workflow with a recorded end time. -/
def doneEntryC10 : WorkflowResult :=
  { initResult "d" 1 with state := .completed, endTime := some 5 }

/-- A registry entry of a still-running workflow. -/
def runningEntryC10 : WorkflowResult := initResult "r" 1

/-- The example log-data mapping of the sanitizer claim. -/
def exampleC8 : List (String × Value) :=
  [("senha", .vstr "x"),
   ("nested", .vdict [("token", .vstr "y"), ("ok", .vint 1)])]

/-! ## Helper lemmas on the retry loop -/

/-- The error-message builder only reads the step's name and timeout, both
untouched by the retry bookkeeping. -/
lemma attemptErrorMsg_congr (s t : WorkflowStep) (h1 : s.name = t.name)
    (h2 : s.timeoutSecs = t.timeoutSecs) (o : AttemptOutcome) :
    attemptErrorMsg s o = attemptErrorMsg t o := by
  cases o <;> simp [attemptErrorMsg, raisedMsg, timeoutMsg, h1, h2]

/-- If the attempts at relative indices `0..k-1` fail and the attempt at
relative index `k ≤ left` succeeds, the retry loop ends COMPLETED with the
successful value, records `k + 1` attempts past the starting index, and
sleeps `2^i` time units after each failed attempt. -/
lemma runAttemptsFrom_success :
    ∀ (k : Nat) (step : WorkflowStep) (attempt left : Nat), k ≤ left →
    (∀ i, i < k → (step.action (attempt + i)).fails = true) →
    (step.action (attempt + k)).fails = false →
    ∃ r, step.action (attempt + k) = .ok r ∧
      (runAttemptsFrom step attempt left).1.state = .completed ∧
      (runAttemptsFrom step attempt left).1.result = some r ∧
      (runAttemptsFrom step attempt left).2.1 = .successRec r (attempt + k + 1) ∧
      (runAttemptsFrom step attempt left).2.2 =
        (List.range k).map (fun i => 2 ^ (attempt + i)) := by
  intro k
  induction k with
  | zero =>
      intro step attempt left _ _ hok
      rw [Nat.add_zero] at hok
      cases hact : step.action attempt with
      | ok r =>
          exact ⟨r, hact, by cases left <;> simp [runAttemptsFrom, hact]⟩
      | raised e => rw [hact] at hok; simp [AttemptOutcome.fails] at hok
      | timedOut => rw [hact] at hok; simp [AttemptOutcome.fails] at hok
  | succ k ih =>
      intro step attempt left hle hfail hok
      have h0 : (step.action (attempt + 0)).fails = true := hfail 0 (Nat.succ_pos k)
      rw [Nat.add_zero] at h0
      cases left with
      | zero => omega
      | succ l =>
          cases hact : step.action attempt with
          | ok r => rw [hact] at h0; simp [AttemptOutcome.fails] at h0
          | raised e =>
              have hstep :
                  runAttemptsFrom step attempt (l + 1) =
                    (let msg := attemptErrorMsg step (.raised e)
                     let stepR := { step with error := some msg,
                                              state := .retrying,
                                              retryCount := step.retryCount + 1 }
                     let t := runAttemptsFrom stepR (attempt + 1) l
                     (t.1, t.2.1, 2 ^ attempt :: t.2.2)) := by
                simp [runAttemptsFrom, hact]
              obtain ⟨r, hr, hst, hres, hrec, hsl⟩ :=
                ih { step with error := some (attemptErrorMsg step (.raised e)),
                               state := .retrying,
                               retryCount := step.retryCount + 1 }
                  (attempt + 1) l (by omega)
                  (fun i hi => by
                    have := hfail (i + 1) (by omega)
                    simpa [Nat.add_assoc, Nat.add_comm 1 i] using this)
                  (by
                    have : attempt + 1 + k = attempt + (k + 1) := by omega
                    rw [this]; exact hok)
              refine ⟨r, by simpa [show attempt + 1 + k = attempt + (k + 1) by omega] using hr,
                      ?_, ?_, ?_, ?_⟩ <;>
                rw [hstep]
              · simpa using hst
              · simpa using hres
              · simpa [show attempt + 1 + k + 1 = attempt + (k + 1) + 1 by omega] using hrec
              · simp only []
                rw [hsl, List.range_succ_eq_map, List.map_cons, List.map_map]
                refine congrArg₂ _ (by rw [Nat.add_zero]) ?_
                exact List.map_congr_left fun i _ => by
                  simp [Function.comp]; ring_nf
          | timedOut =>
              have hstep :
                  runAttemptsFrom step attempt (l + 1) =
                    (let msg := attemptErrorMsg step .timedOut
                     let stepR := { step with error := some msg,
                                              state := .retrying,
                                              retryCount := step.retryCount + 1 }
                     let t := runAttemptsFrom stepR (attempt + 1) l
                     (t.1, t.2.1, 2 ^ attempt :: t.2.2)) := by
                simp [runAttemptsFrom, hact]
              obtain ⟨r, hr, hst, hres, hrec, hsl⟩ :=
                ih { step with error := some (attemptErrorMsg step .timedOut),
                               state := .retrying,
                               retryCount := step.retryCount + 1 }
                  (attempt + 1) l (by omega)
                  (fun i hi => by
                    have := hfail (i + 1) (by omega)
                    simpa [Nat.add_assoc, Nat.add_comm 1 i] using this)
                  (by
                    have : attempt + 1 + k = attempt + (k + 1) := by omega
                    rw [this]; exact hok)
              refine ⟨r, by simpa [show attempt + 1 + k = attempt + (k + 1) by omega] using hr,
                      ?_, ?_, ?_, ?_⟩ <;>
                rw [hstep]
              · simpa using hst
              · simpa using hres
              · simpa [show attempt + 1 + k + 1 = attempt + (k + 1) + 1 by omega] using hrec
              · simp only []
                rw [hsl, List.range_succ_eq_map, List.map_cons, List.map_map]
                refine congrArg₂ _ (by rw [Nat.add_zero]) ?_
                exact List.map_congr_left fun i _ => by
                  simp [Function.comp]; ring_nf

/-- If every attempt at relative indices `0..left` fails, the retry loop
ends FAILED, records the last error and `left + 1` attempts past the
starting index, and sleeps `2^i` after every attempt but the last. -/
lemma runAttemptsFrom_failure :
    ∀ (left : Nat) (step : WorkflowStep) (attempt : Nat),
    (∀ i, i ≤ left → (step.action (attempt + i)).fails = true) →
    (runAttemptsFrom step attempt left).1.state = .failed ∧
    (runAttemptsFrom step attempt left).1.error =
      some (attemptErrorMsg step (step.action (attempt + left))) ∧
    (runAttemptsFrom step attempt left).2.1 =
      .failureRec (attemptErrorMsg step (step.action (attempt + left)))
        (attempt + left + 1) ∧
    (runAttemptsFrom step attempt left).2.2 =
      (List.range left).map (fun i => 2 ^ (attempt + i)) := by
  intro left
  induction left with
  | zero =>
      intro step attempt hfail
      have h0 := hfail 0 (Nat.le_refl 0)
      rw [Nat.add_zero] at h0
      cases hact : step.action attempt with
      | ok r => rw [hact] at h0; simp [AttemptOutcome.fails] at h0
      | raised e => simp [runAttemptsFrom, hact]
      | timedOut => simp [runAttemptsFrom, hact]
  | succ l ih =>
      intro step attempt hfail
      have h0 := hfail 0 (Nat.zero_le _)
      rw [Nat.add_zero] at h0
      cases hact : step.action attempt with
      | ok r => rw [hact] at h0; simp [AttemptOutcome.fails] at h0
      | raised e =>
          have hstep :
              runAttemptsFrom step attempt (l + 1) =
                (let msg := attemptErrorMsg step (.raised e)
                 let stepR := { step with error := some msg,
                                          state := .retrying,
                                          retryCount := step.retryCount + 1 }
                 let t := runAttemptsFrom stepR (attempt + 1) l
                 (t.1, t.2.1, 2 ^ attempt :: t.2.2)) := by
            simp [runAttemptsFrom, hact]
          set stepR : WorkflowStep :=
            { step with error := some (attemptErrorMsg step (.raised e)),
                        state := .retrying,
                        retryCount := step.retryCount + 1 } with hR
          obtain ⟨hst, herr, hrec, hsl⟩ :=
            ih stepR (attempt + 1)
              (fun i hi => by
                have := hfail (i + 1) (by omega)
                simpa [hR, Nat.add_assoc, Nat.add_comm 1 i] using this)
          have hmsg : attemptErrorMsg stepR = attemptErrorMsg step := by
            funext o; exact attemptErrorMsg_congr _ _ rfl rfl o
          have hactR : stepR.action (attempt + 1 + l) =
              step.action (attempt + (l + 1)) := by
            simp [hR, show attempt + 1 + l = attempt + (l + 1) by omega]
          refine ⟨?_, ?_, ?_, ?_⟩ <;> rw [hstep]
          · simpa [← hR] using hst
          · simpa [← hR, hmsg, hactR,
              show attempt + 1 + l = attempt + (l + 1) by omega] using herr
          · simpa [← hR, hmsg, hactR,
              show attempt + 1 + l = attempt + (l + 1) by omega,
              show attempt + 1 + l + 1 = attempt + (l + 1) + 1 by omega] using hrec
          · simp only [← hR]
            rw [hsl, List.range_succ_eq_map, List.map_cons, List.map_map]
            refine congrArg₂ _ (by rw [Nat.add_zero]) ?_
            exact List.map_congr_left fun i _ => by
              simp [Function.comp]; ring_nf
      | timedOut =>
          have hstep :
              runAttemptsFrom step attempt (l + 1) =
                (let msg := attemptErrorMsg step .timedOut
                 let stepR := { step with error := some msg,
                                          state := .retrying,
                                          retryCount := step.retryCount + 1 }
                 let t := runAttemptsFrom stepR (attempt + 1) l
                 (t.1, t.2.1, 2 ^ attempt :: t.2.2)) := by
            simp [runAttemptsFrom, hact]
          set stepR : WorkflowStep :=
            { step with error := some (attemptErrorMsg step .timedOut),
                        state := .retrying,
                        retryCount := step.retryCount + 1 } with hR
          obtain ⟨hst, herr, hrec, hsl⟩ :=
            ih stepR (attempt + 1)
              (fun i hi => by
                have := hfail (i + 1) (by omega)
                simpa [hR, Nat.add_assoc, Nat.add_comm 1 i] using this)
          have hmsg : attemptErrorMsg stepR = attemptErrorMsg step := by
            funext o; exact attemptErrorMsg_congr _ _ rfl rfl o
          have hactR : stepR.action (attempt + 1 + l) =
              step.action (attempt + (l + 1)) := by
            simp [hR, show attempt + 1 + l = attempt + (l + 1) by omega]
          refine ⟨?_, ?_, ?_, ?_⟩ <;> rw [hstep]
          · simpa [← hR] using hst
          · simpa [← hR, hmsg, hactR,
              show attempt + 1 + l = attempt + (l + 1) by omega] using herr
          · simpa [← hR, hmsg, hactR,
              show attempt + 1 + l = attempt + (l + 1) by omega,
              show attempt + 1 + l + 1 = attempt + (l + 1) + 1 by omega] using hrec
          · simp only []
            rw [hsl, List.range_succ_eq_map, List.map_cons, List.map_map]
            refine congrArg₂ _ (by rw [Nat.add_zero]) ?_
            exact List.map_congr_left fun i _ => by
              simp [Function.comp]; ring_nf

/-- The retry loop records at most `attempt + left + 1` attempts. -/
lemma runAttemptsFrom_attempts_le :
    ∀ (left : Nat) (step : WorkflowStep) (attempt : Nat),
      (runAttemptsFrom step attempt left).2.1.attempts ≤ attempt + left + 1 := by
  intro left
  induction left with
  | zero =>
      intro step attempt
      cases hact : step.action attempt <;>
        simp [runAttemptsFrom, hact, StepRecord.attempts]
  | succ l ih =>
      intro step attempt
      cases hact : step.action attempt with
      | ok r => simp [runAttemptsFrom, hact, StepRecord.attempts]
      | raised e =>
          have hstep :
              runAttemptsFrom step attempt (l + 1) =
                (let msg := attemptErrorMsg step (.raised e)
                 let stepR := { step with error := some msg,
                                          state := .retrying,
                                          retryCount := step.retryCount + 1 }
                 let t := runAttemptsFrom stepR (attempt + 1) l
                 (t.1, t.2.1, 2 ^ attempt :: t.2.2)) := by
            simp [runAttemptsFrom, hact]
          have hih := ih { step with error := some (attemptErrorMsg step (.raised e)),
                                     state := .retrying,
                                     retryCount := step.retryCount + 1 } (attempt + 1)
          rw [hstep]
          simp only []
          omega
      | timedOut =>
          have hstep :
              runAttemptsFrom step attempt (l + 1) =
                (let msg := attemptErrorMsg step .timedOut
                 let stepR := { step with error := some msg,
                                          state := .retrying,
                                          retryCount := step.retryCount + 1 }
                 let t := runAttemptsFrom stepR (attempt + 1) l
                 (t.1, t.2.1, 2 ^ attempt :: t.2.2)) := by
            simp [runAttemptsFrom, hact]
          have hih := ih { step with error := some (attemptErrorMsg step .timedOut),
                                     state := .retrying,
                                     retryCount := step.retryCount + 1 } (attempt + 1)
          rw [hstep]
          simp only []
          omega

/-! ## Claim C4 -/

/-- C4: executing a step makes at most `max_retries + 1` attempts (indexed
from 0); between consecutive attempts the engine sleeps `2^attempt` time
units; the first successful attempt ends the step COMPLETED with the
number of attempts actually made recorded; exhausting all attempts ends
it FAILED with the last error recorded.  The hypotheses speak only of
`AttemptOutcome.fails`, so a timed-out attempt is covered exactly like a
raised error. -/
theorem retry_protocol (step : WorkflowStep) :
    (execStep step).2.1.attempts ≤ step.maxRetries + 1 ∧
    (¬ step.condition = some false →
      ((∀ k, k ≤ step.maxRetries →
          (∀ i, i < k → (step.action i).fails = true) →
          (step.action k).fails = false →
          ∃ r, step.action k = .ok r ∧
            (execStep step).1.state = .completed ∧
            (execStep step).2.1 = .successRec r (k + 1) ∧
            (execStep step).2.2 = (List.range k).map (fun i => 2 ^ i)) ∧
        ((∀ i, i ≤ step.maxRetries → (step.action i).fails = true) →
          (execStep step).1.state = .failed ∧
          (execStep step).1.error =
            some (attemptErrorMsg step (step.action step.maxRetries)) ∧
          (execStep step).2.1 =
            .failureRec (attemptErrorMsg step (step.action step.maxRetries))
              (step.maxRetries + 1) ∧
          (execStep step).2.2 =
            (List.range step.maxRetries).map (fun i => 2 ^ i)))) := by
  constructor
  · by_cases hc : step.condition = some false
    · simp [execStep, hc, StepRecord.attempts]
    · have h := runAttemptsFrom_attempts_le step.maxRetries
        { step with state := .running } 0
      simpa [execStep, runAttempts, hc] using h
  · intro hc
    constructor
    · intro k hk hfail hok
      obtain ⟨r, hr, hst, _, hrec, hsl⟩ :=
        runAttemptsFrom_success k { step with state := .running } 0
          step.maxRetries hk
          (fun i hi => by simpa using hfail i hi) (by simpa using hok)
      refine ⟨r, by simpa using hr, ?_, ?_, ?_⟩ <;>
        simp only [execStep, runAttempts, if_neg hc]
      · exact hst
      · simpa using hrec
      · simpa using hsl
    · intro hfail
      have hmsg : attemptErrorMsg { step with state := StepState.running } =
          attemptErrorMsg step := by
        funext o; exact attemptErrorMsg_congr _ _ rfl rfl o
      obtain ⟨hst, herr, hrec, hsl⟩ :=
        runAttemptsFrom_failure step.maxRetries { step with state := .running }
          0 (fun i hi => by simpa using hfail i hi)
      refine ⟨?_, ?_, ?_, ?_⟩ <;> simp only [execStep, runAttempts, if_neg hc]
      · exact hst
      · simpa [hmsg] using herr
      · simpa [hmsg] using hrec
      · simpa using hsl

/-- Witness for C4: the example step with `max_retries = 2`, failing on
attempts 1 and 2 and succeeding on attempt 3, ends COMPLETED with 3
recorded attempts after back-off sleeps of 1 and 2 time units. -/
theorem retry_protocol_witness :
    (execStep retryStepC4).1.state = .completed ∧
    (execStep retryStepC4).2.1 = .successRec "v" 3 ∧
    (execStep retryStepC4).2.2 = [1, 2] := by
  obtain ⟨r, hr, hst, hrec, hsl⟩ :=
    ((retry_protocol retryStepC4).2 (by decide)).1 2 (by decide)
      (fun i hi => by interval_cases i <;> rfl) (by decide)
  have hv : retryStepC4.action 2 = AttemptOutcome.ok "v" := rfl
  rw [hr] at hv
  cases hv
  exact ⟨hst, hrec, by simpa using hsl⟩

/-! ## Sequential-execution structure lemmas -/

/-- The retry loop ends in state COMPLETED with a success record or in
state FAILED with a failure record. -/
lemma runAttemptsFrom_record_state :
    ∀ (left : Nat) (step : WorkflowStep) (attempt : Nat),
      ((runAttemptsFrom step attempt left).1.state = .completed ∧
        ∃ r a, (runAttemptsFrom step attempt left).2.1 = .successRec r a) ∨
      ((runAttemptsFrom step attempt left).1.state = .failed ∧
        ∃ e a, (runAttemptsFrom step attempt left).2.1 = .failureRec e a) := by
  intro left
  induction left with
  | zero =>
      intro step attempt
      cases hact : step.action attempt with
      | ok r => left; simp [runAttemptsFrom, hact]
      | raised e => right; simp [runAttemptsFrom, hact]
      | timedOut => right; simp [runAttemptsFrom, hact]
  | succ l ih =>
      intro step attempt
      cases hact : step.action attempt with
      | ok r => left; simp [runAttemptsFrom, hact]
      | raised e =>
          have h := ih { step with error := some (attemptErrorMsg step (.raised e)),
                                   state := .retrying,
                                   retryCount := step.retryCount + 1 } (attempt + 1)
          simp only [runAttemptsFrom, hact]
          exact h
      | timedOut =>
          have h := ih { step with error := some (attemptErrorMsg step .timedOut),
                                   state := .retrying,
                                   retryCount := step.retryCount + 1 } (attempt + 1)
          simp only [runAttemptsFrom, hact]
          exact h

/-- A step execution ends COMPLETED with a success record, FAILED with a
failure record, or SKIPPED with a skipped record. -/
lemma execStep_record_state (s : WorkflowStep) :
    ((execStep s).1.state = .completed ∧
      ∃ r a, (execStep s).2.1 = .successRec r a) ∨
    ((execStep s).1.state = .failed ∧
      ∃ e a, (execStep s).2.1 = .failureRec e a) ∨
    ((execStep s).1.state = .skipped ∧
      ∃ m, (execStep s).2.1 = .skippedRec m) := by
  by_cases hc : s.condition = some false
  · right; right; simp [execStep, hc]
  · rcases runAttemptsFrom_record_state s.maxRetries { s with state := .running } 0
      with h | h
    · left; simpa [execStep, runAttempts, hc] using h
    · right; left; simpa [execStep, runAttempts, hc] using h

/-- The `applyRecord` leaves the workflow id, state, total and end time
untouched. -/
lemma applyRecord_preserves (wr : WorkflowResult) (n : String)
    (r : StepRecord) :
    (applyRecord wr n r).workflowId = wr.workflowId ∧
    (applyRecord wr n r).state = wr.state ∧
    (applyRecord wr n r).totalSteps = wr.totalSteps ∧
    (applyRecord wr n r).endTime = wr.endTime ∧
    (applyRecord wr n r).stepsResults = dictSet wr.stepsResults n r := by
  cases r <;> simp [applyRecord]

/-- The `applyAll` leaves the workflow id, state, total and end time
untouched. -/
lemma applyAll_preserves (l : List WorkflowStep) :
    ∀ (wr : WorkflowResult),
      (applyAll wr l).workflowId = wr.workflowId ∧
      (applyAll wr l).state = wr.state ∧
      (applyAll wr l).totalSteps = wr.totalSteps ∧
      (applyAll wr l).endTime = wr.endTime := by
  induction l with
  | nil => intro wr; simp [applyAll]
  | cons s rest ih =>
      intro wr
      have h1 := applyRecord_preserves wr s.name (execStep s).2.1
      have h2 := ih (applyRecord wr s.name (execStep s).2.1)
      simp only [applyAll, List.foldl_cons] at h2 ⊢
      exact ⟨h2.1.trans h1.1, h2.2.1.trans h1.2.1, h2.2.2.1.trans h1.2.2.1,
             h2.2.2.2.trans h1.2.2.2.1⟩

/-- Each applied step record adds exactly one to the summed counters. -/
lemma applyAll_sum (l : List WorkflowStep) :
    ∀ (wr : WorkflowResult),
      sumCounters (applyAll wr l) = sumCounters wr + l.length := by
  induction l with
  | nil => intro wr; simp [applyAll]
  | cons s rest ih =>
      intro wr
      have h2 := ih (applyRecord wr s.name (execStep s).2.1)
      simp only [applyAll, List.foldl_cons] at h2 ⊢
      rw [h2]
      cases (execStep s).2.1 <;> simp [applyRecord, sumCounters] <;> omega

/-- The failed-step counter counts exactly the executed steps that ended
FAILED. -/
lemma applyAll_failed (l : List WorkflowStep) :
    ∀ (wr : WorkflowResult),
      (applyAll wr l).failedSteps =
        wr.failedSteps + countInState (l.map execStepFst) .failed := by
  induction l with
  | nil => intro wr; simp [applyAll, countInState]
  | cons s rest ih =>
      intro wr
      have h2 := ih (applyRecord wr s.name (execStep s).2.1)
      simp only [applyAll, List.foldl_cons] at h2 ⊢
      rw [h2]
      rcases execStep_record_state s with ⟨hst, r, a, hrec⟩ |
        ⟨hst, e, a, hrec⟩ | ⟨hst, m, hrec⟩ <;>
        simp [hrec, applyRecord, countInState, List.filter_cons, execStepFst,
          hst] <;> omega

/-- Setting a key absent from an association list appends the binding. -/
lemma dictSet_not_mem {α : Type} (l : List (String × α)) (k : String)
    (v : α) (h : k ∉ l.map Prod.fst) : dictSet l k v = l ++ [(k, v)] := by
  induction l with
  | nil => simp [dictSet]
  | cons p rest ih =>
      simp only [List.map_cons, List.mem_cons] at h
      push_neg at h
      simp [dictSet, Ne.symm h.1, ih h.2]

/-- With fresh, pairwise-distinct step names, the applied records append
one `steps_results` entry per executed step, in execution order. -/
lemma applyAll_stepsResults (l : List WorkflowStep) :
    ∀ (wr : WorkflowResult),
      (∀ s ∈ l, s.name ∉ wr.stepsResults.map Prod.fst) →
      (l.map WorkflowStep.name).Nodup →
      (applyAll wr l).stepsResults =
        wr.stepsResults ++ l.map (fun s => (s.name, (execStep s).2.1)) := by
  induction l with
  | nil => intro wr _ _; simp [applyAll]
  | cons s rest ih =>
      intro wr hfresh hnodup
      simp only [List.map_cons, List.nodup_cons] at hnodup
      have hset : (applyRecord wr s.name (execStep s).2.1).stepsResults =
          wr.stepsResults ++ [(s.name, (execStep s).2.1)] := by
        rw [(applyRecord_preserves wr s.name (execStep s).2.1).2.2.2.2]
        exact dictSet_not_mem _ _ _ (hfresh s (List.mem_cons_self s rest))
      have h2 := ih (applyRecord wr s.name (execStep s).2.1)
        (fun t ht => by
          rw [hset]
          simp only [List.map_append, List.mem_append, List.map_cons,
            List.map_nil, List.mem_singleton]
          push_neg
          refine ⟨hfresh t (List.mem_cons_of_mem s ht), ?_⟩
          intro hcontra
          exact hnodup.1 (hcontra ▸ List.mem_map_of_mem WorkflowStep.name ht))
        hnodup.2
      simp only [applyAll, List.foldl_cons] at h2 ⊢
      rw [h2, hset]
      simp

/-- The sequential loop attempts exactly the `seqSplit` prefix: the result
step list is the executed prefix followed by the untouched suffix, and the
workflow result accumulates exactly those records. -/
lemma execSequential_eq (steps : List WorkflowStep) :
    ∀ (wr : WorkflowResult), wr.state ≠ .cancelled →
      execSequential steps wr =
        ((steps.take (seqSplit steps)).map execStepFst ++
          steps.drop (seqSplit steps),
         applyAll wr (steps.take (seqSplit steps))) := by
  induction steps with
  | nil => intro wr _; simp [execSequential, seqSplit, applyAll]
  | cons s rest ih =>
      intro wr hcancel
      have hsingle : execSingleStep s wr =
          (execStepFst s, applyRecord wr s.name (execStep s).2.1) := by
        unfold execSingleStep execStepFst
        rcases hE : execStep s with ⟨a, b, c⟩
        simp [hE]
      by_cases hcrit : critFailed (execStepFst s) = true
      · have hcrit' : (execStepFst s).state = .failed ∧
            (execStepFst s).canFail = false := by
          simpa [critFailed] using hcrit
        simp only [execSequential, if_neg hcancel, hsingle]
        rw [if_pos hcrit']
        simp [seqSplit, hcrit, applyAll]
      · have hcrit' : ¬((execStepFst s).state = .failed ∧
            (execStepFst s).canFail = false) := by
          simpa [critFailed] using hcrit
        have hstate : (applyRecord wr s.name (execStep s).2.1).state ≠
            .cancelled := by
          rw [(applyRecord_preserves wr s.name (execStep s).2.1).2.1]
          exact hcancel
        have hb : critFailed (execStepFst s) = false := Bool.eq_false_iff.mpr hcrit
        simp only [execSequential, if_neg hcancel, hsingle]
        rw [if_neg hcrit', ih _ hstate]
        simp only [seqSplit, hb, Bool.false_eq_true, if_false,
          Nat.add_comm 1 (seqSplit rest), List.take_succ_cons,
          List.drop_succ_cons, applyAll, List.foldl_cons, List.map_take,
          List.map_cons, List.cons_append]

/-- The attempted prefix never exceeds the declared list. -/
lemma seqSplit_le (steps : List WorkflowStep) :
    seqSplit steps ≤ steps.length := by
  induction steps with
  | nil => simp [seqSplit]
  | cons s rest ih =>
      by_cases h : critFailed (execStepFst s) = true <;>
        simp [seqSplit, h] <;> omega

/-- All attempted steps except possibly the last execute without a
critical failure. -/
lemma seqSplit_prefix_not_crit (steps : List WorkflowStep) :
    ∀ s ∈ steps.take (seqSplit steps - 1),
      critFailed (execStepFst s) = false := by
  induction steps with
  | nil => simp
  | cons s rest ih =>
      by_cases h : critFailed (execStepFst s) = true
      · simp [seqSplit, h]
      · have hb : critFailed (execStepFst s) = false := Bool.eq_false_iff.mpr h
        intro t ht
        rcases Nat.eq_zero_or_pos (seqSplit rest) with hz | hpos
        · simp [seqSplit, hb, hz] at ht
        · have hk : seqSplit (s :: rest) - 1 = (seqSplit rest - 1) + 1 := by
            simp [seqSplit, hb]; omega
          rw [hk, List.take_succ_cons] at ht
          rcases List.mem_cons.1 ht with rfl | hh
          · exact hb
          · exact ih t hh

/-- If the sequential loop stopped early, some attempted step was a
critical failure. -/
lemma seqSplit_stop_crit (steps : List WorkflowStep)
    (h : seqSplit steps < steps.length) :
    ∃ s ∈ steps.take (seqSplit steps), critFailed (execStepFst s) = true := by
  induction steps with
  | nil => simp [seqSplit] at h
  | cons s rest ih =>
      by_cases hc : critFailed (execStepFst s) = true
      · exact ⟨s, by simp [seqSplit, hc], hc⟩
      · have hlt : seqSplit rest < rest.length := by
          simp [seqSplit, hc] at h
          omega
        rcases ih hlt with ⟨t, ht, hcrit⟩
        refine ⟨t, ?_, hcrit⟩
        have hb : critFailed (execStepFst s) = false := Bool.eq_false_iff.mpr hc
        simp only [seqSplit, hb, Bool.false_eq_true, if_false]
        rw [show 1 + seqSplit rest = seqSplit rest + 1 by omega,
          List.take_succ_cons]
        exact List.mem_cons_of_mem s ht

/-- Unfolding of a full sequential workflow run through the structural
description of the loop. -/
lemma runSeq_eq (wid : String) (steps : List WorkflowStep) (endTs : ℚ) :
    runSequentialWorkflow wid steps endTs =
      ({ applyAll (initResult wid steps.length) (steps.take (seqSplit steps))
          with
          state := determineFinalState
            ((steps.take (seqSplit steps)).map execStepFst ++
              steps.drop (seqSplit steps))
            (applyAll (initResult wid steps.length)
              (steps.take (seqSplit steps))),
          endTime := some endTs },
       (steps.take (seqSplit steps)).map execStepFst ++
         steps.drop (seqSplit steps)) := by
  have h := execSequential_eq steps (initResult wid steps.length)
    (by simp [initResult])
  simp only [runSequentialWorkflow, h]

/-- Counting steps in a state distributes over append. -/
lemma countInState_append (a b : List WorkflowStep) (σ : StepState) :
    countInState (a ++ b) σ = countInState a σ + countInState b σ := by
  simp [countInState, List.filter_append]

/-- A member in the given state makes the count positive. -/
lemma countInState_pos_of_mem {s : WorkflowStep} {l : List WorkflowStep}
    {σ : StepState} (h : s ∈ l) (hσ : s.state = σ) : 0 < countInState l σ := by
  have : s ∈ l.filter (fun t => t.state = σ) :=
    List.mem_filter.2 ⟨h, by simp [hσ]⟩
  have hne : l.filter (fun t => t.state = σ) ≠ [] := by
    intro hcontra; rw [hcontra] at this; exact absurd this (List.not_mem_nil s)
  exact List.length_pos.2 hne

/-- No member in the given state means a zero count. -/
lemma countInState_eq_zero {l : List WorkflowStep} {σ : StepState}
    (h : ∀ s ∈ l, s.state ≠ σ) : countInState l σ = 0 := by
  simp only [countInState, List.length_eq_zero]
  exact List.filter_eq_nil_iff.2 fun s hs => by simp [h s hs]

/-- When the failed counter counts the FAILED steps of the list, the final
state determined by `_execute_steps` is FAILED exactly when some FAILED
step is not `can_fail`, and is COMPLETED otherwise. -/
lemma determineFinalState_cases (l : List WorkflowStep) (wr : WorkflowResult)
    (hcnt : wr.failedSteps = countInState l .failed) :
    (determineFinalState l wr = .failed ↔
      ∃ s ∈ l, s.state = .failed ∧ s.canFail = false) ∧
    (determineFinalState l wr = .failed ∨
      determineFinalState l wr = .completed) := by
  by_cases hex : ∃ s ∈ l, s.state = StepState.failed ∧ s.canFail = false
  · obtain ⟨s, hs, h1, h2⟩ := hex
    have hpos : 0 < wr.failedSteps := by
      rw [hcnt]; exact countInState_pos_of_mem hs h1
    have hany : (l.any fun s =>
        decide (s.state = StepState.failed ∧ s.canFail = false)) = true :=
      List.any_eq_true.2 ⟨s, hs, by simp [h1, h2]⟩
    have hfl : determineFinalState l wr = .failed := by
      unfold determineFinalState
      rw [if_pos hpos, if_pos hany]
    exact ⟨⟨fun _ => ⟨s, hs, h1, h2⟩, fun _ => hfl⟩, Or.inl hfl⟩
  · have hany : (l.any fun s =>
        decide (s.state = StepState.failed ∧ s.canFail = false)) = false := by
      rw [List.any_eq_false]
      intro t ht hcontra
      simp only [decide_eq_true_eq] at hcontra
      exact hex ⟨t, ht, hcontra⟩
    have hcompleted : determineFinalState l wr = .completed := by
      unfold determineFinalState
      by_cases hpos2 : wr.failedSteps > 0
      · rw [if_pos hpos2, if_neg (by rw [hany]; exact Bool.false_ne_true)]
      · rw [if_neg hpos2]
    refine ⟨⟨fun hf => ?_, fun hcontra => absurd hcontra hex⟩,
      Or.inr hcompleted⟩
    rw [hcompleted] at hf
    cases hf

/-! ## Claim C5 -/

/-- C5: in sequential mode the steps are attempted in declaration order —
the `steps_results` keys form a prefix of the declared name sequence; all
attempted steps but the last are not critical failures; once a
non-`can_fail` step ends FAILED, all later steps stay PENDING and appear
neither in `steps_results` nor in any counter (the counters sum to the
number of attempted steps); and an early stop only ever happens because
an attempted step was a critical failure. -/
theorem sequential_order_fail_fast (wid : String) (steps : List WorkflowStep)
    (hn : (steps.map WorkflowStep.name).Nodup)
    (hp : ∀ s ∈ steps, s.state = StepState.pending) :
    ((runSequentialWorkflow wid steps).1.stepsResults.map Prod.fst <+:
        steps.map WorkflowStep.name) ∧
    (runSequentialWorkflow wid steps).2 =
      (steps.take (seqSplit steps)).map execStepFst ++
        steps.drop (seqSplit steps) ∧
    (∀ s ∈ steps.take (seqSplit steps - 1),
      critFailed (execStepFst s) = false) ∧
    (∀ s ∈ steps.drop (seqSplit steps),
      s.state = .pending ∧
      s.name ∉ (runSequentialWorkflow wid steps).1.stepsResults.map
        Prod.fst) ∧
    sumCounters (runSequentialWorkflow wid steps).1 = seqSplit steps ∧
    (seqSplit steps < steps.length →
      ∃ s ∈ steps.take (seqSplit steps), critFailed (execStepFst s) = true) := by
  have hklen : seqSplit steps ≤ steps.length := seqSplit_le steps
  have hnodupTake : (List.map WorkflowStep.name
      (List.take (seqSplit steps) steps)).Nodup := by
    rw [List.map_take]
    exact List.Nodup.sublist (List.take_sublist _ _) hn
  have hres : (runSequentialWorkflow wid steps).1.stepsResults =
      (steps.take (seqSplit steps)).map
        (fun s => (s.name, (execStep s).2.1)) := by
    rw [runSeq_eq]
    simp only []
    rw [applyAll_stepsResults _ _ (by simp [initResult]) hnodupTake]
    simp [initResult]
  have hkeys : (runSequentialWorkflow wid steps).1.stepsResults.map Prod.fst =
      (steps.map WorkflowStep.name).take (seqSplit steps) := by
    rw [hres, List.map_map]
    rw [show (Prod.fst ∘ fun s : WorkflowStep => (s.name, (execStep s).2.1)) =
      WorkflowStep.name from rfl]
    exact List.map_take _ _ _
  refine ⟨?_, ?_, seqSplit_prefix_not_crit steps, ?_, ?_,
    seqSplit_stop_crit steps⟩
  · rw [hkeys]; exact List.take_prefix _ _
  · rw [runSeq_eq]
  · intro s hs
    refine ⟨hp s (List.drop_subset _ _ hs), ?_⟩
    rw [hkeys]
    intro hmem
    have hsplit := List.take_append_drop (seqSplit steps)
      (steps.map WorkflowStep.name)
    rw [← hsplit] at hn
    have hdisj := List.disjoint_of_nodup_append hn
    exact hdisj hmem (by
      rw [← List.map_drop]
      exact List.mem_map_of_mem WorkflowStep.name hs)
  · show sumCounters (runSequentialWorkflow wid steps).1 = seqSplit steps
    rw [runSeq_eq]
    have heq : sumCounters
        ({ applyAll (initResult wid steps.length)
            (steps.take (seqSplit steps)) with
           state := determineFinalState
             ((steps.take (seqSplit steps)).map execStepFst ++
               steps.drop (seqSplit steps))
             (applyAll (initResult wid steps.length)
               (steps.take (seqSplit steps))),
           endTime := some 1 }) =
        sumCounters (applyAll (initResult wid steps.length)
          (steps.take (seqSplit steps))) := rfl
    rw [heq, applyAll_sum]
    simp [initResult, sumCounters, List.length_take, Nat.min_eq_left hklen]

/-- Witness for C5: with a failing non-`can_fail` first step and an
always-succeeding second step, the results hold at a concrete input. -/
theorem sequential_order_fail_fast_witness :
    ((runSequentialWorkflow "w"
        [failStepNamed "a", okStepNamed "b"]).1.stepsResults.map Prod.fst <+:
      ["a", "b"]) ∧
    (∀ s ∈ [failStepNamed "a", okStepNamed "b"].drop
        (seqSplit [failStepNamed "a", okStepNamed "b"]),
      s.state = .pending ∧
      s.name ∉ (runSequentialWorkflow "w"
        [failStepNamed "a", okStepNamed "b"]).1.stepsResults.map Prod.fst) ∧
    sumCounters (runSequentialWorkflow "w"
        [failStepNamed "a", okStepNamed "b"]).1 =
      seqSplit [failStepNamed "a", okStepNamed "b"] := by
  have h := sequential_order_fail_fast "w" [failStepNamed "a", okStepNamed "b"]
    (by decide) (by decide)
  exact ⟨by simpa using h.1, h.2.2.2.1, h.2.2.2.2.1⟩

/-! ## Claim C6 -/

/-- C6: after a sequential run, a FAILED step forces workflow-level FAILED
only when it is not `can_fail`: when every FAILED step may fail and at
least one step FAILED, the workflow ends COMPLETED with a positive
failed-step count, and the final state is FAILED exactly when some
non-`can_fail` step ended FAILED. -/
theorem canfail_failure_semantics (wid : String) (steps : List WorkflowStep)
    (hp : ∀ s ∈ steps, s.state = StepState.pending) :
    ((∀ s ∈ (runSequentialWorkflow wid steps).2,
        s.state = .failed → s.canFail = true) →
      (∃ s ∈ (runSequentialWorkflow wid steps).2, s.state = .failed) →
      (runSequentialWorkflow wid steps).1.state = .completed ∧
        0 < (runSequentialWorkflow wid steps).1.failedSteps) ∧
    ((runSequentialWorkflow wid steps).1.state = .failed ↔
      ∃ s ∈ (runSequentialWorkflow wid steps).2,
        s.state = .failed ∧ s.canFail = false) := by
  have hklen : seqSplit steps ≤ steps.length := seqSplit_le steps
  set k := seqSplit steps with hk
  set wrA := applyAll (initResult wid steps.length) (steps.take k) with hwrA
  set post := (steps.take k).map execStepFst ++ steps.drop k with hpost
  have hout1 : (runSequentialWorkflow wid steps).1 =
      { wrA with state := determineFinalState post wrA,
                 endTime := some 1 } := by rw [runSeq_eq]
  have hout2 : (runSequentialWorkflow wid steps).2 = post := by rw [runSeq_eq]
  have hfailed : wrA.failedSteps = countInState post .failed := by
    rw [hwrA, applyAll_failed, hpost, countInState_append]
    have hz : countInState (steps.drop k) .failed = 0 :=
      countInState_eq_zero fun s hs => by
        rw [hp s (List.drop_subset _ _ hs)]; simp
    rw [hz]
    simp [initResult]
  obtain ⟨hiff, hcases⟩ := determineFinalState_cases post wrA hfailed
  have hfailedOut : (runSequentialWorkflow wid steps).1.failedSteps =
      countInState post .failed := by rw [hout1]; exact hfailed
  have hstateOut : (runSequentialWorkflow wid steps).1.state =
      determineFinalState post wrA := by rw [hout1]
  constructor
  · intro hall hex
    rw [hout2] at hall hex
    obtain ⟨s, hs, hsf⟩ := hex
    have hpos : 0 < countInState post .failed := countInState_pos_of_mem hs hsf
    have hnocrit : ¬ ∃ s ∈ post, s.state = .failed ∧ s.canFail = false := by
      intro ⟨t, ht, h1, h2⟩
      rw [hall t ht h1] at h2
      cases h2
    constructor
    · rw [hstateOut]
      rcases hcases with hf | hc
      · exact absurd (hiff.1 hf) hnocrit
      · exact hc
    · rw [hfailedOut]; exact hpos
  · rw [hstateOut, hout2]
    exact hiff

/-- Witness for C6: a `can_fail` step that fails plus a succeeding step
ends the workflow COMPLETED with one failed step. -/
theorem canfail_failure_semantics_witness :
    (runSequentialWorkflow "w"
      [{ failStepNamed "a" with canFail := true }, okStepNamed "b"]).1.state =
        .completed ∧
    0 < (runSequentialWorkflow "w"
      [{ failStepNamed "a" with canFail := true },
       okStepNamed "b"]).1.failedSteps := by
  exact (canfail_failure_semantics "w"
      [{ failStepNamed "a" with canFail := true }, okStepNamed "b"]
      (by decide)).1 (by decide) (by decide)

/-! ## Parallel-execution structure lemmas -/

/-- Applying one record always increments the summed counters by one. -/
lemma applyRecord_sum (wr : WorkflowResult) (nm : String) (r : StepRecord) :
    sumCounters (applyRecord wr nm r) = sumCounters wr + 1 := by
  cases r <;> simp [applyRecord, sumCounters] <;> omega

/-- Applying the record of an executed step adds one to the failed counter
exactly when the step ended FAILED. -/
lemma applyRecord_exec_failed (wr : WorkflowResult) (s : WorkflowStep) :
    (applyRecord wr s.name (execStep s).2.1).failedSteps =
      wr.failedSteps + countInState [execStepFst s] .failed := by
  rcases execStep_record_state s with ⟨hst, r, a, hrec⟩ |
    ⟨hst, e, a, hrec⟩ | ⟨hst, m, hrec⟩ <;>
    simp [hrec, applyRecord, countInState, execStepFst, List.filter, hst]

/-- Plumbing form of `execSingleStep`. -/
lemma execSingleStep_eq (s : WorkflowStep) (wr : WorkflowResult) :
    execSingleStep s wr =
      (execStepFst s, applyRecord wr s.name (execStep s).2.1) := by
  unfold execSingleStep execStepFst
  rcases hE : execStep s with ⟨a, b, c⟩
  simp [hE]

/-- Processing a batch of finished tasks maps the steps through their
execution, emits one finish event per task, preserves the result's
identity fields, and updates the counters by the finished states. -/
lemma finishTasks_spec (ts : List WorkflowStep) :
    ∀ (wr : WorkflowResult),
      (finishTasks ts wr).1 = ts.map execStepFst ∧
      (finishTasks ts wr).2.2 =
        ts.map (fun t => Event.finished t.name (execStepFst t).state) ∧
      (finishTasks ts wr).2.1.state = wr.state ∧
      (finishTasks ts wr).2.1.totalSteps = wr.totalSteps ∧
      sumCounters (finishTasks ts wr).2.1 = sumCounters wr + ts.length ∧
      (finishTasks ts wr).2.1.failedSteps =
        wr.failedSteps + countInState (ts.map execStepFst) .failed := by
  induction ts with
  | nil => intro wr; simp [finishTasks, countInState]
  | cons t rest ih =>
      intro wr
      obtain ⟨ih1, ih2, ih3, ih4, ih5, ih6⟩ :=
        ih (applyRecord wr t.name (execStep t).2.1)
      have hpres := applyRecord_preserves wr t.name (execStep t).2.1
      simp only [finishTasks, execSingleStep_eq]
      refine ⟨by simp [ih1], by simp [ih2], by rw [ih3]; exact hpres.2.1,
        by rw [ih4]; exact hpres.2.2.1, ?_, ?_⟩
      · rw [ih5, applyRecord_sum]
        simp [Nat.add_comm, Nat.add_assoc, Nat.add_left_comm]
      · rw [ih6, applyRecord_exec_failed]
        rw [show (t :: rest).map execStepFst =
          [execStepFst t] ++ rest.map execStepFst by simp]
        rw [countInState_append]
        omega

/-- The `splitByMask` partitions the running list: lengths add up and each
element lands on one side; both sides are sublists of the input. -/
lemma splitByMask_spec (l : List WorkflowStep) :
    ∀ (m : List Bool),
      (splitByMask l m).1.length + (splitByMask l m).2.length = l.length ∧
      (∀ x ∈ l, x ∈ (splitByMask l m).1 ∨ x ∈ (splitByMask l m).2) ∧
      (∀ x ∈ (splitByMask l m).1, x ∈ l) ∧
      (∀ x ∈ (splitByMask l m).2, x ∈ l) := by
  induction l with
  | nil => intro m; simp [splitByMask]
  | cons s rest ih =>
      intro m
      cases m with
      | nil =>
          obtain ⟨ih1, ih2, ih3, ih4⟩ := ih []
          refine ⟨by simp [splitByMask]; omega, ?_, ?_, ?_⟩
          · intro x hx
            rcases List.mem_cons.1 hx with rfl | hx
            · right; simp [splitByMask]
            · rcases ih2 x hx with h | h
              · left; simpa [splitByMask] using h
              · right; simp [splitByMask]; right; exact h
          · intro x hx
            simp only [splitByMask] at hx
            exact List.mem_cons_of_mem s (ih3 x hx)
          · intro x hx
            simp only [splitByMask] at hx
            rcases List.mem_cons.1 hx with rfl | hx
            · exact List.mem_cons_self _ _
            · exact List.mem_cons_of_mem s (ih4 x hx)
      | cons b ms =>
          obtain ⟨ih1, ih2, ih3, ih4⟩ := ih ms
          cases b with
          | true =>
              refine ⟨by simp [splitByMask]; omega, ?_, ?_, ?_⟩
              · intro x hx
                rcases List.mem_cons.1 hx with rfl | hx
                · left; simp [splitByMask]
                · rcases ih2 x hx with h | h
                  · left; simp [splitByMask]; right; exact h
                  · right; simpa [splitByMask] using h
              · intro x hx
                simp only [splitByMask] at hx
                rcases List.mem_cons.1 hx with rfl | hx
                · exact List.mem_cons_self _ _
                · exact List.mem_cons_of_mem s (ih3 x hx)
              · intro x hx
                simp only [splitByMask] at hx
                exact List.mem_cons_of_mem s (ih4 x hx)
          | false =>
              refine ⟨by simp [splitByMask]; omega, ?_, ?_, ?_⟩
              · intro x hx
                rcases List.mem_cons.1 hx with rfl | hx
                · right; simp [splitByMask]
                · rcases ih2 x hx with h | h
                  · left; simpa [splitByMask] using h
                  · right; simp [splitByMask]; right; exact h
              · intro x hx
                simp only [splitByMask] at hx
                exact List.mem_cons_of_mem s (ih3 x hx)
              · intro x hx
                simp only [splitByMask] at hx
                rcases List.mem_cons.1 hx with rfl | hx
                · exact List.mem_cons_self _ _
                · exact List.mem_cons_of_mem s (ih4 x hx)

/-- The `selectDone` partitions the running list the same way. -/
lemma selectDone_spec (l : List WorkflowStep) (m : List Bool) :
    (selectDone l m).1.length + (selectDone l m).2.length = l.length ∧
    (∀ x ∈ l, x ∈ (selectDone l m).1 ∨ x ∈ (selectDone l m).2) ∧
    (∀ x ∈ (selectDone l m).1, x ∈ l) ∧
    (∀ x ∈ (selectDone l m).2, x ∈ l) := by
  obtain ⟨h1, h2, h3, h4⟩ := splitByMask_spec l m
  rcases hS : splitByMask l m with ⟨d, r⟩
  rw [hS] at h1 h2 h3 h4
  by_cases hd : d.isEmpty = true
  · simp only [selectDone, hS, hd, if_true]
    refine ⟨by simp [List.length_take, List.length_drop]; omega, ?_, ?_, ?_⟩
    · intro x hx
      have := List.take_append_drop 1 l
      rw [← this] at hx
      exact List.mem_append.1 hx
    · intro x hx; exact List.mem_of_mem_take hx
    · intro x hx; exact List.mem_of_mem_drop hx
  · simp only [selectDone, hS, hd, if_false]
    exact ⟨h1, h2, h3, h4⟩

/-- The two name-membership filters of the launch phase partition the
pending list's length. -/
lemma filter_name_partition (l : List WorkflowStep) (names : List String) :
    (l.filter (fun s => decide (s.name ∈ names))).length +
      (l.filter (fun s => decide (s.name ∉ names))).length = l.length := by
  have hfun : (fun s : WorkflowStep => decide (s.name ∉ names)) =
      (fun s : WorkflowStep => ! decide (s.name ∈ names)) := by
    funext s; simp [decide_not]
  rw [hfun]
  exact (List.length_eq_length_filter_add
    (fun s : WorkflowStep => decide (s.name ∈ names))).symm

/-- An empty positive filter makes the negative filter the whole list. -/
lemma filter_name_neg_all (l : List WorkflowStep) (names : List String)
    (h : l.filter (fun s => decide (s.name ∈ names)) = []) :
    l.filter (fun s => decide (s.name ∉ names)) = l := by
  rw [List.filter_eq_self]
  intro s hs
  have := List.filter_eq_nil_iff.1 h s hs
  simpa using this

/-- An already-done loop state is left unchanged. -/
lemma parStep_eq_done (sched : Nat → List Bool) (k : Nat) (st : ParState)
    (h : st.done = true) : parStep sched k st = st := by
  simp [parStep, h]

/-- With nothing pending and nothing in flight, the loop exits. -/
lemma parStep_eq_exit (sched : Nat → List Bool) (k : Nat) (st : ParState)
    (h1 : st.done = false)
    (h2 : (st.pending.isEmpty && st.running.isEmpty) = true) :
    parStep sched k st = { st with done := true } := by
  simp [parStep, h1, h2]

/-- With no task launched or in flight, the loop exits silently. -/
lemma parStep_eq_break (sched : Nat → List Bool) (k : Nat) (st : ParState)
    (h1 : st.done = false)
    (h2 : (st.pending.isEmpty && st.running.isEmpty) = false)
    (h3 : ¬ st.wr.state = .cancelled)
    (h4 : (runningAfterLaunch st).isEmpty = true) :
    parStep sched k st =
      { st with pending := keptOf st,
                trace := st.trace ++ startEventsOf st,
                done := true } := by
  simp only [parStep, h1, Bool.false_eq_true, if_false, h2, if_neg h3]
  rw [if_pos (by simpa [runningAfterLaunch, launchedOf, readyOf] using h4)]
  simp [keptOf, startEventsOf, launchedOf, readyOf]

/-- One full launch-and-wait iteration of the loop. -/
lemma parStep_eq_wait (sched : Nat → List Bool) (k : Nat) (st : ParState)
    (h1 : st.done = false)
    (h2 : (st.pending.isEmpty && st.running.isEmpty) = false)
    (h3 : ¬ st.wr.state = .cancelled)
    (h4 : (runningAfterLaunch st).isEmpty = false)
    {dt r2 : List WorkflowStep} {fs : List WorkflowStep}
    {wr2 : WorkflowResult} {evs : List Event}
    (hSD : selectDone (runningAfterLaunch st) (sched k) = (dt, r2))
    (hFT : finishTasks dt st.wr = (fs, wr2, evs)) :
    parStep sched k st =
      { pending := keptOf st
        running := r2
        completedNames := st.completedNames ++ dt.map (fun s => s.name)
        finished := st.finished ++ fs
        wr := wr2
        trace := st.trace ++ startEventsOf st ++ evs
        done := (readyOf st).isEmpty && r2.isEmpty } := by
  have h4' : ¬ ((st.running ++ List.filter
      (fun s => decide (s.name ∈ getReadySteps st.pending st.completedNames))
      st.pending).isEmpty = true) := by
    simp only [runningAfterLaunch, launchedOf, readyOf] at h4
    simp [h4]
  simp only [parStep, h1, Bool.false_eq_true, if_false, h2, if_neg h3]
  rw [if_neg h4']
  simp only [runningAfterLaunch, launchedOf, readyOf] at hSD
  rw [hSD]
  simp only []
  rw [hFT]
  simp [keptOf, startEventsOf, launchedOf, readyOf]

/-- Each loop iteration preserves the structural invariant. -/
lemma parStep_inv (n : Nat) (steps0 : List WorkflowStep)
    (sched : Nat → List Bool) (k : Nat) (st : ParState)
    (h : ParInv n steps0 st) : ParInv n steps0 (parStep sched k st) := by
  by_cases hdone0 : st.done = true
  · rw [parStep_eq_done sched k st hdone0]; exact h
  · have hdone : st.done = false := by simpa using hdone0
    by_cases hempty : (st.pending.isEmpty && st.running.isEmpty) = true
    · rw [parStep_eq_exit sched k st hdone hempty]
      obtain ⟨hsr, htot, hpart, hsum, hfc, _, hps, hrs, hfe, hpn⟩ := h
      exact ⟨hsr, htot, hpart, hsum, hfc,
        fun _ => List.isEmpty_iff.1 (Bool.and_eq_true_iff.1 hempty).2,
        hps, hrs, hfe, hpn⟩
    · have hempty' : (st.pending.isEmpty && st.running.isEmpty) = false := by
        simpa using hempty
      have hcancel : ¬ st.wr.state = .cancelled := by
        rw [h.stateRunning]; decide
      by_cases hrl : (runningAfterLaunch st).isEmpty = true
      · rw [parStep_eq_break sched k st hdone hempty' hcancel hrl]
        have hr0 : st.running = [] ∧ launchedOf st = [] :=
          List.append_eq_nil.1 (List.isEmpty_iff.1 hrl)
        have hkept : keptOf st = st.pending :=
          filter_name_neg_all _ _ (by simpa [launchedOf] using hr0.2)
        obtain ⟨hsr, htot, hpart, hsum, hfc, _, hps, hrs, hfe, hpn⟩ := h
        refine ⟨hsr, htot, ?_, hsum, hfc, fun _ => hr0.1, ?_, hrs, hfe, ?_⟩
        · simpa [hkept] using hpart
        · intro s hs; rw [hkept] at hs; exact hps s hs
        · rw [hkept]; exact hpn
      · have hrl' : (runningAfterLaunch st).isEmpty = false := by
          simpa using hrl
        rcases hSD : selectDone (runningAfterLaunch st) (sched k) with ⟨dt, r2⟩
        rcases hFT : finishTasks dt st.wr with ⟨fs, wr2, evs⟩
        rw [parStep_eq_wait sched k st hdone hempty' hcancel hrl' hSD hFT]
        have hft := finishTasks_spec dt st.wr
        rw [hFT] at hft
        dsimp only [] at hft
        obtain ⟨hfs, hevs, hwst, hwtot, hwsum, hwfail⟩ := hft
        have hsd := selectDone_spec (runningAfterLaunch st) (sched k)
        rw [hSD] at hsd
        dsimp only [] at hsd
        obtain ⟨hsdlen, hsdmem, hsddt, hsdr2⟩ := hsd
        have hpartpend := filter_name_partition st.pending (readyOf st)
        have hlenfs : fs.length = dt.length := by rw [hfs]; simp
        have hlenral : (runningAfterLaunch st).length =
            st.running.length + (launchedOf st).length := by
          simp [runningAfterLaunch]
        have hmemsteps : ∀ x ∈ runningAfterLaunch st, x ∈ steps0 := by
          intro x hx
          rcases List.mem_append.1 hx with hx | hx
          · exact h.runSub x hx
          · exact h.pendSub x (List.mem_filter.1 hx).1
        refine ⟨?_, ?_, ?_, ?_, ?_, ?_, ?_, ?_, ?_, ?_⟩
        · rw [hwst]; exact h.stateRunning
        · rw [hwtot]; exact h.total
        · have hpart2 : (launchedOf st).length + (keptOf st).length =
              st.pending.length := hpartpend
          have h2 := h.partition
          simp only [List.length_append]
          omega
        · simp only []
          rw [hwsum, h.sum]
          simp [hlenfs]
        · simp only []
          rw [hwfail, h.failedCnt, countInState_append, hfs]
        · intro hd
          simp only [] at hd
          exact List.isEmpty_iff.1 (Bool.and_eq_true_iff.1 hd).2
        · intro s hs
          exact h.pendSub s (List.mem_filter.1 hs).1
        · intro s hs
          exact hmemsteps s (hsdr2 s hs)
        · intro f hf
          simp only [List.mem_append] at hf
          rcases hf with hf | hf
          · exact h.finExec f hf
          · rw [hfs] at hf
            obtain ⟨t, ht, rfl⟩ := List.mem_map.1 hf
            exact ⟨t, hmemsteps t (hsddt t ht), rfl⟩
        · simp only [keptOf]
          exact List.Nodup.sublist
            (List.Sublist.map _ (List.filter_sublist _)) h.pendNodup

/-- The invariant holds along the whole loop. -/
lemma parRun_inv (n : Nat) (steps0 : List WorkflowStep)
    (sched : Nat → List Bool) :
    ∀ (fuel k : Nat) (st : ParState), ParInv n steps0 st →
      ParInv n steps0 (parRun sched fuel k st) := by
  intro fuel
  induction fuel with
  | zero => intro k st h; simpa [parRun] using h
  | succ f ih =>
      intro k st h
      simp only [parRun]
      exact ih (k + 1) _ (parStep_inv n steps0 sched k st h)

/-- The invariant holds at the initial loop state. -/
lemma parInit_inv (wid : String) (steps : List WorkflowStep)
    (hn : (steps.map WorkflowStep.name).Nodup) :
    ParInv steps.length steps (parInit wid steps) := by
  refine ⟨rfl, rfl, by simp [parInit], by simp [parInit, initResult, sumCounters],
    by simp [parInit, initResult, countInState], ?_, ?_, ?_, ?_, ?_⟩
  · intro hcontra; simp [parInit] at hcontra
  · intro s hs; simpa [parInit] using hs
  · intro s hs; simp [parInit] at hs
  · intro f hf; simp [parInit] at hf
  · simpa [parInit] using hn

/-- A step with no declared dependencies is launched whenever it is still
pending. -/
lemma mem_launched_of_no_deps (st : ParState) (s0 : WorkflowStep)
    (hdeps : s0.dependsOn = []) (hp : s0 ∈ st.pending) :
    s0 ∈ launchedOf st := by
  have hq : s0 ∈ st.pending.filter
      (fun s => s.dependsOn.all (fun d => decide (d ∈ st.completedNames))) :=
    List.mem_filter.2 ⟨hp, by simp [hdeps]⟩
  have hname : s0.name ∈ readyOf st := by
    simp only [readyOf, getReadySteps]
    exact List.mem_map_of_mem _ hq
  exact List.mem_filter.2 ⟨hp, by simpa using hname⟩

/-- One iteration keeps a no-dependency step waiting, in flight, or
finished, and once the loop is done such a step is finished. -/
lemma parStep_eventually (sched : Nat → List Bool) (k : Nat) (st : ParState)
    (s0 : WorkflowStep) (hdeps : s0.dependsOn = [])
    (hrun : st.wr.state = .running)
    (h : StepEventually s0 st)
    (hd : st.done = true → execStepFst s0 ∈ st.finished) :
    StepEventually s0 (parStep sched k st) ∧
      ((parStep sched k st).done = true →
        execStepFst s0 ∈ (parStep sched k st).finished) := by
  by_cases hdone0 : st.done = true
  · rw [parStep_eq_done sched k st hdone0]; exact ⟨h, hd⟩
  · have hdone : st.done = false := by simpa using hdone0
    by_cases hempty : (st.pending.isEmpty && st.running.isEmpty) = true
    · rw [parStep_eq_exit sched k st hdone hempty]
      have hpe : st.pending = [] :=
        List.isEmpty_iff.1 (Bool.and_eq_true_iff.1 hempty).1
      have hre : st.running = [] :=
        List.isEmpty_iff.1 (Bool.and_eq_true_iff.1 hempty).2
      have hfin : execStepFst s0 ∈ st.finished := by
        rcases h with h | h | h
        · rw [hpe] at h; cases h
        · rw [hre] at h; cases h
        · exact h
      exact ⟨Or.inr (Or.inr hfin), fun _ => hfin⟩
    · have hempty' : (st.pending.isEmpty && st.running.isEmpty) = false := by
        simpa using hempty
      have hcancel : ¬ st.wr.state = .cancelled := by rw [hrun]; decide
      by_cases hrl : (runningAfterLaunch st).isEmpty = true
      · rw [parStep_eq_break sched k st hdone hempty' hcancel hrl]
        have hr0 : st.running = [] ∧ launchedOf st = [] :=
          List.append_eq_nil.1 (List.isEmpty_iff.1 hrl)
        have hfin : execStepFst s0 ∈ st.finished := by
          rcases h with h | h | h
          · have := mem_launched_of_no_deps st s0 hdeps h
            rw [hr0.2] at this; cases this
          · rw [hr0.1] at h; cases h
          · exact h
        exact ⟨Or.inr (Or.inr hfin), fun _ => hfin⟩
      · have hrl' : (runningAfterLaunch st).isEmpty = false := by
          simpa using hrl
        rcases hSD : selectDone (runningAfterLaunch st) (sched k) with ⟨dt, r2⟩
        rcases hFT : finishTasks dt st.wr with ⟨fs, wr2, evs⟩
        rw [parStep_eq_wait sched k st hdone hempty' hcancel hrl' hSD hFT]
        have hft := finishTasks_spec dt st.wr
        rw [hFT] at hft
        dsimp only [] at hft
        have hsd := selectDone_spec (runningAfterLaunch st) (sched k)
        rw [hSD] at hsd
        dsimp only [] at hsd
        have hral : s0 ∈ runningAfterLaunch st →
            execStepFst s0 ∈ st.finished ++ fs ∨ s0 ∈ r2 := by
          intro hmem
          rcases hsd.2.1 s0 hmem with hdt | hr2
          · left
            apply List.mem_append.2
            right
            rw [hft.1]
            exact List.mem_map_of_mem execStepFst hdt
          · right; exact hr2
        rcases h with h | h | h
        · have hl := mem_launched_of_no_deps st s0 hdeps h
          have hmem : s0 ∈ runningAfterLaunch st :=
            List.mem_append.2 (Or.inr hl)
          rcases hral hmem with hf | hr2
          · refine ⟨Or.inr (Or.inr hf), fun _ => hf⟩
          · refine ⟨Or.inr (Or.inl hr2), ?_⟩
            intro hdn
            dsimp only [] at hdn
            have : r2 = [] :=
              List.isEmpty_iff.1 (Bool.and_eq_true_iff.1 hdn).2
            rw [this] at hr2; cases hr2
        · have hmem : s0 ∈ runningAfterLaunch st :=
            List.mem_append.2 (Or.inl h)
          rcases hral hmem with hf | hr2
          · refine ⟨Or.inr (Or.inr hf), fun _ => hf⟩
          · refine ⟨Or.inr (Or.inl hr2), ?_⟩
            intro hdn
            dsimp only [] at hdn
            have : r2 = [] :=
              List.isEmpty_iff.1 (Bool.and_eq_true_iff.1 hdn).2
            rw [this] at hr2; cases hr2
        · have hf : execStepFst s0 ∈ st.finished ++ fs :=
            List.mem_append.2 (Or.inl h)
          exact ⟨Or.inr (Or.inr hf), fun _ => hf⟩

/-- Along the whole loop, a no-dependency step stays accounted for, and a
completed loop has finished it. -/
lemma parRun_eventually (n : Nat) (steps0 : List WorkflowStep)
    (sched : Nat → List Bool) (s0 : WorkflowStep)
    (hdeps : s0.dependsOn = []) :
    ∀ (fuel k : Nat) (st : ParState), ParInv n steps0 st →
      StepEventually s0 st →
      (st.done = true → execStepFst s0 ∈ st.finished) →
      StepEventually s0 (parRun sched fuel k st) ∧
        ((parRun sched fuel k st).done = true →
          execStepFst s0 ∈ (parRun sched fuel k st).finished) := by
  intro fuel
  induction fuel with
  | zero => intro k st _ h hd; simpa [parRun] using ⟨h, hd⟩
  | succ f ih =>
      intro k st hinv h hd
      simp only [parRun]
      obtain ⟨h1, h2⟩ :=
        parStep_eventually sched k st s0 hdeps hinv.stateRunning h hd
      exact ih (k + 1) _ (parStep_inv n steps0 sched k st hinv) h1 h2

/-- The finished names of a concatenated trace. -/
lemma finishedNames_append :
    ∀ (a b : List Event),
      finishedNames (a ++ b) = finishedNames a ++ finishedNames b := by
  intro a
  induction a with
  | nil => intro b; simp [finishedNames]
  | cons e rest ih =>
      intro b
      cases e <;> simp [finishedNames, ih]

/-- Start events contribute no finished names. -/
lemma finishedNames_starts (l : List WorkflowStep) :
    finishedNames (l.map (fun s => Event.started s.name s.dependsOn)) = [] := by
  induction l with
  | nil => simp [finishedNames]
  | cons s rest ih => simp [finishedNames, ih]

/-- The finished names of a batch of finish events are the batch's step
names. -/
lemma finishedNames_finishes (dt : List WorkflowStep) :
    finishedNames (dt.map (fun t => Event.finished t.name (execStepFst t).state)) =
      dt.map (fun t => t.name) := by
  induction dt with
  | nil => simp [finishedNames]
  | cons t rest ih => simp [finishedNames, ih]

/-- The `depsSeen` only uses the accumulator through membership. -/
lemma depsSeen_mono :
    ∀ (tr : List Event) (fin fin' : List String),
      (∀ x ∈ fin, x ∈ fin') → depsSeen tr fin → depsSeen tr fin' := by
  intro tr
  induction tr with
  | nil => intro fin fin' _ _; trivial
  | cons e rest ih =>
      intro fin fin' hsub h
      cases e with
      | started nm deps =>
          exact ⟨fun d hd => hsub d (h.1 d hd), ih fin fin' hsub h.2⟩
      | finished nm σ =>
          refine ih (nm :: fin) (nm :: fin') ?_ h
          intro x hx
          rcases List.mem_cons.1 hx with rfl | hx
          · exact List.mem_cons_self _ _
          · exact List.mem_cons_of_mem _ (hsub x hx)

/-- Concatenating a compliant continuation onto a compliant trace keeps
the dependency ordering. -/
lemma depsSeen_append :
    ∀ (a b : List Event) (fin : List String), depsSeen a fin →
      depsSeen b (finishedNames a ++ fin) → depsSeen (a ++ b) fin := by
  intro a
  induction a with
  | nil => intro b fin _ hb; simpa [finishedNames] using hb
  | cons e rest ih =>
      intro b fin ha hb
      cases e with
      | started nm deps =>
          refine ⟨ha.1, ih b fin ha.2 ?_⟩
          simpa [finishedNames] using hb
      | finished nm σ =>
          refine ih b (nm :: fin) ha ?_
          refine depsSeen_mono b _ _ ?_ hb
          intro x hx
          simp only [finishedNames, List.cons_append, List.mem_cons,
            List.mem_append] at hx ⊢
          tauto

/-- A trace of pure finish events respects dependencies vacuously. -/
lemma depsSeen_finishes (dt : List WorkflowStep) :
    ∀ (fin : List String),
      depsSeen (dt.map (fun t => Event.finished t.name (execStepFst t).state))
        fin := by
  induction dt with
  | nil => intro fin; trivial
  | cons t rest ih => intro fin; exact ih _

/-- Start events whose dependencies are all in the accumulator respect
the ordering. -/
lemma depsSeen_starts (l : List WorkflowStep) (fin : List String)
    (h : ∀ s ∈ l, ∀ d ∈ s.dependsOn, d ∈ fin) :
    depsSeen (l.map (fun s => Event.started s.name s.dependsOn)) fin := by
  induction l with
  | nil => trivial
  | cons s rest ih =>
      exact ⟨h s (List.mem_cons_self _ _),
        ih fun t ht => h t (List.mem_cons_of_mem s ht)⟩

/-- Every launched step has all its declared dependencies in the
completed set (this is where `_get_ready_steps` feeds the launch). -/
lemma launched_deps_sub (st : ParState)
    (hnodup : (st.pending.map WorkflowStep.name).Nodup)
    (s : WorkflowStep) (hs : s ∈ launchedOf st) :
    ∀ d ∈ s.dependsOn, d ∈ st.completedNames := by
  obtain ⟨hp, hname⟩ := List.mem_filter.1 hs
  have hname' : s.name ∈ readyOf st := by simpa using hname
  simp only [readyOf, getReadySteps] at hname'
  obtain ⟨t, ht, htname⟩ := List.mem_map.1 hname'
  have htp : t ∈ st.pending := (List.mem_filter.1 ht).1
  have hts : t = s := List.inj_on_of_nodup_map hnodup htp hp htname
  subst hts
  have hall := (List.mem_filter.1 ht).2
  simp only [List.all_eq_true, decide_eq_true_eq] at hall
  exact hall

/-- Each loop iteration preserves the dependency-ordering invariant. -/
lemma parStep_trace (n : Nat) (steps0 : List WorkflowStep)
    (sched : Nat → List Bool) (k : Nat) (st : ParState)
    (hinv : ParInv n steps0 st) (htr : TraceInv st) :
    TraceInv (parStep sched k st) := by
  obtain ⟨hds, hcf⟩ := htr
  have hstarts : depsSeen (startEventsOf st)
      (finishedNames st.trace ++ []) := by
    apply depsSeen_starts
    intro s hs d hd
    simp only [List.append_nil]
    exact hcf d (launched_deps_sub st hinv.pendNodup s hs d hd)
  by_cases hdone0 : st.done = true
  · rw [parStep_eq_done sched k st hdone0]; exact ⟨hds, hcf⟩
  · have hdone : st.done = false := by simpa using hdone0
    by_cases hempty : (st.pending.isEmpty && st.running.isEmpty) = true
    · rw [parStep_eq_exit sched k st hdone hempty]; exact ⟨hds, hcf⟩
    · have hempty' : (st.pending.isEmpty && st.running.isEmpty) = false := by
        simpa using hempty
      have hcancel : ¬ st.wr.state = .cancelled := by
        rw [hinv.stateRunning]; decide
      by_cases hrl : (runningAfterLaunch st).isEmpty = true
      · rw [parStep_eq_break sched k st hdone hempty' hcancel hrl]
        refine ⟨depsSeen_append _ _ _ hds hstarts, ?_⟩
        intro d hd
        rw [finishedNames_append]
        exact List.mem_append.2 (Or.inl (hcf d hd))
      · have hrl' : (runningAfterLaunch st).isEmpty = false := by
          simpa using hrl
        rcases hSD : selectDone (runningAfterLaunch st) (sched k) with ⟨dt, r2⟩
        rcases hFT : finishTasks dt st.wr with ⟨fs, wr2, evs⟩
        rw [parStep_eq_wait sched k st hdone hempty' hcancel hrl' hSD hFT]
        have hft := finishTasks_spec dt st.wr
        rw [hFT] at hft
        dsimp only [] at hft
        have hevs : evs =
            dt.map (fun t => Event.finished t.name (execStepFst t).state) :=
          hft.2.1
        constructor
        · refine depsSeen_append _ _ _
            (depsSeen_append _ _ _ hds hstarts) ?_
          rw [hevs]
          exact depsSeen_finishes dt _
        · intro d hd
          simp only [] at hd
          rw [finishedNames_append, finishedNames_append]
          rcases List.mem_append.1 hd with hd | hd
          · exact List.mem_append.2 (Or.inl (List.mem_append.2
              (Or.inl (hcf d hd))))
          · refine List.mem_append.2 (Or.inr ?_)
            rw [hevs, finishedNames_finishes]
            exact hd

/-- The dependency-ordering invariant holds along the whole loop. -/
lemma parRun_trace (n : Nat) (steps0 : List WorkflowStep)
    (sched : Nat → List Bool) :
    ∀ (fuel k : Nat) (st : ParState), ParInv n steps0 st → TraceInv st →
      TraceInv (parRun sched fuel k st) := by
  intro fuel
  induction fuel with
  | zero => intro k st _ h; simpa [parRun] using h
  | succ f ih =>
      intro k st hinv h
      simp only [parRun]
      exact ih (k + 1) _ (parStep_inv n steps0 sched k st hinv)
        (parStep_trace n steps0 sched k st hinv h)

/-! ## Claim C1 -/

/-- Counterexample for C1 as stated: under the schedule in which A and B
finish in the same `asyncio.wait` batch, step C is launched and executed
(its start and successful finish appear in the trace) even though its
dependency A — which is not `can_fail` — finished FAILED beforehand.  The
loop also terminates normally. -/
theorem parallel_failed_dep_unblocks_counterexample :
    (parRun schedC1 6 0 (parInit "w" parStepsC1)).trace =
      [.started "A" [], .started "B" [], .finished "A" .failed,
       .finished "B" .completed, .started "C" ["A", "B"],
       .finished "C" .completed] ∧
    stepA.canFail = false ∧
    (parRun schedC1 6 0 (parInit "w" parStepsC1)).done = true :=
  ⟨rfl, rfl, rfl⟩

/-- C1 (amended): in parallel mode a step never starts before every step
named in its `depends_on` has *finished its task* — reached a terminal
step state, whether COMPLETED, FAILED or SKIPPED (the trace always
satisfies `depsSeen`); a FAILED or SKIPPED dependency unblocks dependents
exactly like a COMPLETED one.  For steps A, B (no dependencies) and C
depending on both, with A failing and not `can_fail`, whether C runs
depends on the completion schedule, but every terminating execution ends
with the workflow FAILED and a positive failed-step count. -/
theorem parallel_dependency_order (wid : String) (steps : List WorkflowStep)
    (sched : Nat → List Bool) (fuel : Nat)
    (hn : (steps.map WorkflowStep.name).Nodup) :
    depsSeen (parRun sched fuel 0 (parInit wid steps)).trace [] ∧
    (∀ (schedE : Nat → List Bool) (fuelE : Nat),
      (parRun schedE fuelE 0 (parInit wid parStepsC1)).done = true →
      (runParallelWorkflow wid parStepsC1 schedE fuelE).1.state = .failed ∧
        0 < (runParallelWorkflow wid parStepsC1 schedE fuelE).1.failedSteps) := by
  constructor
  · exact (parRun_trace steps.length steps sched fuel 0 _
      (parInit_inv wid steps hn)
      ⟨trivial, by intro d hd; simp [parInit] at hd⟩).1
  · intro schedE fuelE hdone
    have hnC : (parStepsC1.map WorkflowStep.name).Nodup := by decide
    have hinv := parRun_inv parStepsC1.length parStepsC1 schedE fuelE 0 _
      (parInit_inv wid parStepsC1 hnC)
    have hev := parRun_eventually parStepsC1.length parStepsC1 schedE stepA
      rfl fuelE 0 _ (parInit_inv wid parStepsC1 hnC)
      (Or.inl (by simp [parInit, parStepsC1]))
      (by intro hct; simp [parInit] at hct)
    set st := parRun schedE fuelE 0 (parInit wid parStepsC1) with hst
    have hfin : execStepFst stepA ∈ st.finished := hev.2 hdone
    have hrunnil : st.running = [] := hinv.doneRun hdone
    have hAstate : (execStepFst stepA).state = .failed := rfl
    have hAcf : (execStepFst stepA).canFail = false := rfl
    have hpendstate : ∀ s ∈ st.pending, s.state = .pending := by
      intro s hs
      have hsub := hinv.pendSub s hs
      simp only [parStepsC1, List.mem_cons, List.not_mem_nil, or_false]
        at hsub
      rcases hsub with rfl | rfl | rfl <;> rfl
    have hcnt : st.wr.failedSteps = countInState st.allSteps .failed := by
      rw [hinv.failedCnt]
      simp only [ParState.allSteps]
      rw [countInState_append, countInState_append, hrunnil]
      have hzp : countInState st.pending .failed = 0 :=
        countInState_eq_zero fun s hs => by rw [hpendstate s hs]; simp
      rw [hzp]
      simp [countInState]
    have hfinAll : execStepFst stepA ∈ st.allSteps := by
      simp only [ParState.allSteps]
      exact List.mem_append.2 (Or.inl (List.mem_append.2 (Or.inl hfin)))
    have hdet := determineFinalState_cases st.allSteps st.wr hcnt
    constructor
    · have hsteq : (runParallelWorkflow wid parStepsC1 schedE fuelE).1.state =
          determineFinalState st.allSteps st.wr := rfl
      rw [hsteq]
      exact hdet.1.2 ⟨execStepFst stepA, hfinAll, hAstate, hAcf⟩
    · have hfeq :
          (runParallelWorkflow wid parStepsC1 schedE fuelE).1.failedSteps =
            st.wr.failedSteps := rfl
      rw [hfeq, hinv.failedCnt]
      exact countInState_pos_of_mem hfin hAstate

/-- Witness for C1 (amended) at the concrete three-step workflow and the
batch schedule. -/
theorem parallel_dependency_order_witness :
    depsSeen (parRun schedC1 6 0 (parInit "w" parStepsC1)).trace [] ∧
    (runParallelWorkflow "w" parStepsC1 schedC1 6).1.state = .failed := by
  have h := parallel_dependency_order "w" parStepsC1 schedC1 6 (by decide)
  exact ⟨h.1, (h.2 schedC1 6 rfl).1⟩

/-! ## Claim C2 -/

/-- Counterexample for C2 as stated: a sequential fail-fast stop reaches a
terminal workflow state with
`completed_steps + failed_steps + skipped_steps = 1 < 2 = total_steps`. -/
theorem counters_terminal_gap_counterexample :
    (runSequentialWorkflow "w"
        [failStepNamed "a", okStepNamed "b"]).1.state.isTerminal = true ∧
    sumCounters (runSequentialWorkflow "w"
        [failStepNamed "a", okStepNamed "b"]).1 = 1 ∧
    (runSequentialWorkflow "w"
        [failStepNamed "a", okStepNamed "b"]).1.totalSteps = 2 :=
  ⟨rfl, rfl, rfl⟩

/-- C2 (amended): `completed_steps + failed_steps + skipped_steps ≤
total_steps` holds at every point of a sequential run (after any prefix of
the step list) and at every reachable state of a parallel run; at a
terminal state the sum can stay strictly below `total_steps` (fail-fast or
never-ready steps are not counted), but a sequential run that ends
COMPLETED has attempted every step and reaches equality. -/
theorem counters_invariant (wid : String) (steps : List WorkflowStep)
    (hn : (steps.map WorkflowStep.name).Nodup) :
    (∀ i : Nat,
      sumCounters (execSequential (steps.take i)
          (initResult wid steps.length)).2 ≤
        (initResult wid steps.length).totalSteps) ∧
    (∀ (sched : Nat → List Bool) (fuel : Nat),
      sumCounters (parRun sched fuel 0 (parInit wid steps)).wr ≤
        (parRun sched fuel 0 (parInit wid steps)).wr.totalSteps) ∧
    ((runSequentialWorkflow wid steps).1.state = .completed →
      sumCounters (runSequentialWorkflow wid steps).1 =
        (runSequentialWorkflow wid steps).1.totalSteps) := by
  refine ⟨?_, ?_, ?_⟩
  · intro i
    rw [execSequential_eq (steps.take i) (initResult wid steps.length)
      (by simp [initResult])]
    dsimp only []
    rw [applyAll_sum]
    have h1 : ((steps.take i).take (seqSplit (steps.take i))).length ≤
        (steps.take i).length := by
      rw [List.length_take]; omega
    have h2 : (steps.take i).length ≤ steps.length := by
      rw [List.length_take]; omega
    simp only [initResult, sumCounters]
    omega
  · intro sched fuel
    have hinv := parRun_inv steps.length steps sched fuel 0 _
      (parInit_inv wid steps hn)
    rw [hinv.sum, hinv.total]
    have := hinv.partition
    omega
  · intro hcompleted
    have hstate : (runSequentialWorkflow wid steps).1.state =
        determineFinalState
          ((steps.take (seqSplit steps)).map execStepFst ++
            steps.drop (seqSplit steps))
          (applyAll (initResult wid steps.length)
            (steps.take (seqSplit steps))) := by
      rw [runSeq_eq]
    have hsum : sumCounters (runSequentialWorkflow wid steps).1 =
        (steps.take (seqSplit steps)).length := by
      rw [runSeq_eq]
      have heq : sumCounters
          ({ applyAll (initResult wid steps.length)
              (steps.take (seqSplit steps)) with
             state := determineFinalState
               ((steps.take (seqSplit steps)).map execStepFst ++
                 steps.drop (seqSplit steps))
               (applyAll (initResult wid steps.length)
                 (steps.take (seqSplit steps))),
             endTime := some 1 }) =
          sumCounters (applyAll (initResult wid steps.length)
            (steps.take (seqSplit steps))) := rfl
      rw [heq, applyAll_sum]
      simp [initResult, sumCounters]
    have htot : (runSequentialWorkflow wid steps).1.totalSteps =
        steps.length := by
      rw [runSeq_eq]
      have := (applyAll_preserves (steps.take (seqSplit steps))
        (initResult wid steps.length)).2.2.1
      simpa [initResult] using this
    rcases Nat.lt_or_ge (seqSplit steps) steps.length with hlt | hge
    · exfalso
      obtain ⟨s, hsmem, hcrit⟩ := seqSplit_stop_crit steps hlt
      have hsf : (execStepFst s).state = .failed ∧
          (execStepFst s).canFail = false := by
        simpa [critFailed] using hcrit
      have hexmem : execStepFst s ∈
          (steps.take (seqSplit steps)).map execStepFst ++
            steps.drop (seqSplit steps) :=
        List.mem_append.2 (Or.inl (List.mem_map_of_mem execStepFst hsmem))
      have hfailpos : 0 < (applyAll (initResult wid steps.length)
          (steps.take (seqSplit steps))).failedSteps := by
        rw [applyAll_failed]
        have hpos : 0 < countInState
            ((steps.take (seqSplit steps)).map execStepFst) .failed :=
          countInState_pos_of_mem (List.mem_map_of_mem execStepFst hsmem)
            hsf.1
        have hz : (initResult wid steps.length).failedSteps = 0 := rfl
        omega
      have hany : (((steps.take (seqSplit steps)).map execStepFst ++
          steps.drop (seqSplit steps)).any fun s =>
            decide (s.state = StepState.failed ∧ s.canFail = false)) = true :=
        List.any_eq_true.2 ⟨execStepFst s, hexmem, by simp [hsf.1, hsf.2]⟩
      have : determineFinalState
          ((steps.take (seqSplit steps)).map execStepFst ++
            steps.drop (seqSplit steps))
          (applyAll (initResult wid steps.length)
            (steps.take (seqSplit steps))) = .failed := by
        unfold determineFinalState
        rw [if_pos hfailpos, if_pos hany]
      rw [hstate, this] at hcompleted
      cases hcompleted
    · have hk : seqSplit steps = steps.length :=
        Nat.le_antisymm (seqSplit_le steps) hge
      rw [hsum, htot, hk, List.length_take, Nat.min_self]

/-- Witness for C2 (amended): a one-step run that completes reaches
equality, and the three-step parallel example under the batch schedule
respects the bound. -/
theorem counters_invariant_witness :
    sumCounters (runSequentialWorkflow "w" [okStepNamed "a"]).1 =
      (runSequentialWorkflow "w" [okStepNamed "a"]).1.totalSteps ∧
    sumCounters (parRun schedC1 6 0 (parInit "w" parStepsC1)).wr ≤
      (parRun schedC1 6 0 (parInit "w" parStepsC1)).wr.totalSteps := by
  have h1 := counters_invariant "w" [okStepNamed "a"] (by decide)
  have h2 := counters_invariant "w" parStepsC1 (by decide)
  exact ⟨h1.2.2 rfl, h2.2.1 schedC1 6⟩

/-! ## Claim C3 -/

/-- C3 (code bug): `execute_workflow` copies only the list
(`list.copy()`), not the step objects, so executing a registered workflow
mutates the template's stored step in place: after one run of a workflow
whose only step always fails, the stored step object is FAILED with a
bumped retry counter and a recorded error, while a fresh template step
would be PENDING with no bookkeeping. -/
theorem template_step_mutated_after_execute :
    ((executeWorkflow (defineWorkflow Engine.empty "w" [c3TemplateStep])
        "w" "id").2.store.getD 0 default).state = .failed ∧
    ((executeWorkflow (defineWorkflow Engine.empty "w" [c3TemplateStep])
        "w" "id").2.store.getD 0 default).retryCount = 1 ∧
    ((executeWorkflow (defineWorkflow Engine.empty "w" [c3TemplateStep])
        "w" "id").2.store.getD 0 default).error =
      some "Step a failed: boom" ∧
    c3TemplateStep.state = .pending ∧
    c3TemplateStep.retryCount = 0 ∧
    c3TemplateStep.error = none :=
  ⟨rfl, rfl, rfl, rfl, rfl, rfl⟩

/-! ## Claim C7 -/

/-- Counterexample for C7 as stated: executing an undefined workflow name
raises `ValueError` (the repository defines no `NotFoundError` class at
all), so the raised error is not a `NotFoundError`. -/
theorem execute_undefined_valueerror_counterexample :
    (executeWorkflow Engine.empty "x" "id").1 =
      .error (.valueError "Workflow not defined: x") ∧
    resultIsNotFound (executeWorkflow Engine.empty "x" "id").1 = false :=
  ⟨rfl, rfl⟩

/-- C7 (amended): `execute_workflow` on a name never registered through
`define_workflow` fails with a `ValueError` (not a `NotFoundError`);
no `WorkflowResult` is produced, no step is executed, and the engine —
its active-workflow registry and step store included — is unchanged. -/
theorem execute_undefined_raises_valueerror (e : Engine) (name wid : String)
    (h : dictGet e.defs name = none) :
    executeWorkflow e name wid =
      (.error (.valueError ("Workflow not defined: " ++ name)), e) := by
  simp [executeWorkflow, h]

/-- Witness for C7 (amended) on the empty engine. -/
theorem execute_undefined_raises_valueerror_witness :
    executeWorkflow Engine.empty "x" "id" =
      (.error (.valueError "Workflow not defined: x"), Engine.empty) :=
  execute_undefined_raises_valueerror Engine.empty "x" "id" rfl

/-! ## Claim C10 -/

/-- Counterexample for C10 as stated: a CANCELLED workflow (terminal
state) whose `end_time` was never set — exactly what `cancel_workflow`
leaves in the registry — survives `cleanup_completed_workflows(0)`, which
removes nothing and returns 0. -/
theorem cleanup_missing_endtime_counterexample :
    (cleanupCompletedWorkflows [("w", cancelledEntryC10)] 0 1000).1 =
      [("w", cancelledEntryC10)] ∧
    (cleanupCompletedWorkflows [("w", cancelledEntryC10)] 0 1000).2 = 0 ∧
    cancelledEntryC10.state.isTerminal = true :=
  ⟨rfl, rfl, rfl⟩

/-- C10 (amended): `cleanup_completed_workflows` keeps exactly the
entries that are not (terminal with a set, non-zero `end_time` older than
the cutoff); the returned count plus the kept entries account for the
whole registry; and a non-terminal entry is never removed, regardless of
its age. -/
theorem cleanup_semantics (active : List (String × WorkflowResult))
    (maxAgeHours currentTime : ℚ) :
    (∀ p ∈ active,
      (p ∈ (cleanupCompletedWorkflows active maxAgeHours currentTime).1 ↔
        ¬(p.2.state.isTerminal = true ∧
          endTimeOldEnough p.2.endTime
            (currentTime - maxAgeHours * 3600) = true))) ∧
    (∀ p ∈ (cleanupCompletedWorkflows active maxAgeHours currentTime).1,
      p ∈ active) ∧
    (cleanupCompletedWorkflows active maxAgeHours currentTime).2 +
      (cleanupCompletedWorkflows active maxAgeHours currentTime).1.length =
      active.length ∧
    (∀ p ∈ active, p.2.state.isTerminal = false →
      p ∈ (cleanupCompletedWorkflows active maxAgeHours currentTime).1) := by
  refine ⟨?_, ?_, ?_, ?_⟩
  · intro p hp
    simp only [cleanupCompletedWorkflows, List.mem_filter]
    constructor
    · intro ⟨_, hkeep⟩
      intro ⟨ht, hold⟩
      simp [cleanupRemoves, ht, hold] at hkeep
    · intro hnot
      refine ⟨hp, ?_⟩
      have hb : (p.2.state.isTerminal &&
          endTimeOldEnough p.2.endTime
            (currentTime - maxAgeHours * 3600)) = false := by
        by_contra hb
        rw [Bool.not_eq_false, Bool.and_eq_true] at hb
        exact hnot ⟨hb.1, hb.2⟩
      simp [cleanupRemoves, hb]
  · intro p hp
    exact (List.mem_filter.1 hp).1
  · simp only [cleanupCompletedWorkflows]
    have hfun : (fun p : String × WorkflowResult =>
        !cleanupRemoves p.2 (currentTime - maxAgeHours * 3600)) =
        (fun p : String × WorkflowResult =>
          ! (fun q : String × WorkflowResult =>
            cleanupRemoves q.2 (currentTime - maxAgeHours * 3600)) p) := rfl
    rw [hfun]
    exact (List.length_eq_length_filter_add _).symm
  · intro p hp hnt
    simp only [cleanupCompletedWorkflows, List.mem_filter]
    exact ⟨hp, by simp [cleanupRemoves, hnt]⟩

/-- Witness for C10 (amended) on a registry with one removable completed
entry and one running entry. -/
theorem cleanup_semantics_witness :
    ("r", runningEntryC10) ∈ (cleanupCompletedWorkflows
      [("d", doneEntryC10), ("r", runningEntryC10)] 0 1000).1 ∧
    (cleanupCompletedWorkflows
        [("d", doneEntryC10), ("r", runningEntryC10)] 0 1000).2 +
      (cleanupCompletedWorkflows
        [("d", doneEntryC10), ("r", runningEntryC10)] 0 1000).1.length = 2 := by
  have h := cleanup_semantics [("d", doneEntryC10), ("r", runningEntryC10)]
    0 1000
  exact ⟨h.2.2.2 ("r", runningEntryC10)
      (List.mem_cons_of_mem _ (List.mem_cons_self _ _)) rfl,
    by simpa using h.2.2.1⟩

/-! ## Claim C8 -/

/-- C8: `_sanitize_log_data` agrees, on every input mapping, with the
specification-worded transformation — redact sensitive keys, recurse into
nested mappings, truncate non-empty lists to their (sanitized) first
element plus an ellipsis marker or a count-only summary — and produces
the claimed output on the concrete example. -/
theorem sanitize_log_data_spec :
    (∀ data : List (String × Value), sanitizeLogData data = sanitizeSpec data) ∧
    sanitizeLogData exampleC8 =
      [("senha", .vstr "[REDACTED]"),
       ("nested", .vdict [("token", .vstr "[REDACTED]"), ("ok", .vint 1)])] := by
  constructor
  · intro data
    induction data using sanitizeLogData.induct with
    | case1 => unfold sanitizeLogData sanitizeSpec; rfl
    | case2 k v rest ih2 ih1 =>
        cases v with
        | vstr s => simp only [sanitizeLogData, sanitizeSpec, ih1]
        | vint n => simp only [sanitizeLogData, sanitizeSpec, ih1]
        | vbool b => simp only [sanitizeLogData, sanitizeSpec, ih1]
        | vnone => simp only [sanitizeLogData, sanitizeSpec, ih1]
        | vdict es =>
            dsimp only [] at ih2
            simp only [sanitizeLogData, sanitizeSpec, ih1, ih2]
        | vlist elems =>
            cases elems with
            | nil => simp only [sanitizeLogData, sanitizeSpec, ih1]
            | cons e tail =>
                cases e with
                | vdict es =>
                    dsimp only [] at ih2
                    simp only [sanitizeLogData, sanitizeSpec, ih1, ih2]
                | vstr s => simp only [sanitizeLogData, sanitizeSpec, ih1]
                | vint n => simp only [sanitizeLogData, sanitizeSpec, ih1]
                | vbool b => simp only [sanitizeLogData, sanitizeSpec, ih1]
                | vnone => simp only [sanitizeLogData, sanitizeSpec, ih1]
                | vlist l2 => simp only [sanitizeLogData, sanitizeSpec, ih1]
  · simp [exampleC8, sanitizeLogData,
      show isSensitiveKey "senha" = true from rfl,
      show isSensitiveKey "nested" = false from rfl,
      show isSensitiveKey "token" = true from rfl,
      show isSensitiveKey "ok" = false from rfl]

/-! ## Claim C9 -/

/-- Rounding an integer changes nothing. -/
lemma roundHalfEven_intCast (n : ℤ) : roundHalfEven (n : ℚ) = n := by
  unfold roundHalfEven
  simp [Int.floor_intCast]

/-- Half-to-even rounding never exceeds an integer bound of its input. -/
lemma roundHalfEven_le (x : ℚ) (n : ℤ) (h : x ≤ (n : ℚ)) :
    roundHalfEven x ≤ n := by
  unfold roundHalfEven
  simp only []
  have hfl : ⌊x⌋ ≤ n := by
    have := Int.floor_le_floor h
    simpa using this
  split_ifs with h1 h2 h3
  · exact hfl
  · have hlt : (⌊x⌋ : ℚ) < (n : ℚ) - 1 / 2 := by
      have hfx := Int.floor_le x
      linarith
    have hlt2 : (⌊x⌋ : ℚ) < (n : ℚ) := by linarith
    have : ⌊x⌋ < n := by exact_mod_cast hlt2
    omega
  · exact hfl
  · have heq : x - ⌊x⌋ = 1 / 2 := le_antisymm (not_lt.1 h2) (not_lt.1 h1)
    have heq2 : (⌊x⌋ : ℚ) = x - 1 / 2 := by linarith
    have hlt : (⌊x⌋ : ℚ) < (n : ℚ) := by rw [heq2]; linarith
    have : ⌊x⌋ < n := by exact_mod_cast hlt
    omega

/-- Rounding to two decimals keeps values at most one. -/
lemma round2_le_one (x : ℚ) (h : x ≤ 1) : round2 x ≤ 1 := by
  unfold round2
  rw [div_le_one (by norm_num : (0:ℚ) < 100)]
  have : roundHalfEven (x * 100) ≤ (100 : ℤ) := by
    apply roundHalfEven_le
    push_cast
    nlinarith
  exact_mod_cast this

/-- C9: `_calculate_answer_quality` equals the reference definition (length
band, 0.3 times the shared-token fraction, punctuation bonus, clamp,
2-decimal rounding) on all string inputs; it yields 0.2 on the concrete
short irrelevant unpunctuated example; and it never exceeds 1. -/
theorem answer_quality_spec :
    (∀ answer question : String,
      calcAnswerQuality answer question =
        calcAnswerQualitySpec answer question) ∧
    calcAnswerQuality "ok" "What is a fraction?" = 1 / 5 ∧
    (∀ answer question : String, calcAnswerQuality answer question ≤ 1) := by
  refine ⟨?_, ?_, ?_⟩
  · intro answer question
    simp only [calcAnswerQuality, calcAnswerQualitySpec]
    by_cases hc : 0 < ((tokenSet question) ∩ (tokenSet answer)).card
    · have hle : (((tokenSet question) ∩ (tokenSet answer)).card : ℚ) /
          ((tokenSet question).card : ℚ) ≤ 1 := by
        have hqpos : 0 < (tokenSet question).card :=
          lt_of_lt_of_le hc (Finset.card_le_card Finset.inter_subset_left)
        rw [div_le_one (by positivity)]
        exact_mod_cast Finset.card_le_card Finset.inter_subset_left
      rw [if_pos hc, min_eq_left hle]
      congr 1
      congr 1
      ring
    · have hc0 : ((tokenSet question) ∩ (tokenSet answer)).card = 0 := by
        omega
      rw [if_neg hc, hc0]
      norm_num
  · have h1 : ("ok".toList.length < 50) := by decide
    have h2 : ¬ (0 < (tokenSet "What is a fraction?" ∩ tokenSet "ok").card) :=
      by decide
    have h3 : ("ok".toList.contains '.' || "ok".toList.contains '!' ||
        "ok".toList.contains '?') = false := by decide
    simp only [calcAnswerQuality]
    rw [if_pos h1, if_neg h2, if_neg (by rw [h3]; exact Bool.false_ne_true)]
    rw [show (1/5 + 0 + 0 : ℚ) = 1/5 by norm_num]
    rw [min_eq_left (by norm_num : (1/5:ℚ) ≤ 1)]
    unfold round2
    rw [show (1/5 * 100 : ℚ) = ((20:ℤ):ℚ) by norm_num, roundHalfEven_intCast]
    norm_num
  · intro answer question
    simp only [calcAnswerQuality]
    exact round2_le_one _ (min_le_right _ _)

end VLabs
